import Mathlib

/-!
Verification of the Mayflower reporter build pipeline (scripts/build.py).

The Python source is shallowly embedded below.  Strings are modelled as
`List Char` (Python `str` restricted to the ASCII fragment the pipeline
manipulates; `unicodedata.normalize("NFKC", s)` is the identity on that
fragment, and the two explicit replacements of `uclean` are modelled
directly).  Regular-expression searches are embedded as explicit scanning
functions that reproduce the leftmost-match, greedy/lazy backtracking
semantics of the concrete patterns appearing in the source; each scanner's
doc comment names the pattern it implements.  Recursive scanners that do
not recurse structurally carry a fuel argument initialised to the input
length, which is an upper bound on the number of scan positions.
-/

/-! ## Basic character classes (ASCII, as matched by the Python patterns) -/

/-- Python regex class `[ \t]`. -/
def isSpTab (c : Char) : Bool := c = ' ' || c = '\t'

/-- Python `\s` / `str.strip()` whitespace, ASCII fragment:
space, tab, newline, carriage return, vertical tab, form feed. -/
def isPyWs (c : Char) : Bool :=
  c = ' ' || c = '\t' || c = '\n' || c = '\r' || c = '\x0b' || c = '\x0c'

/-- Python regex class `[A-Za-z]`. -/
def isAsciiAlpha (c : Char) : Bool := ('A' ≤ c && c ≤ 'Z') || ('a' ≤ c && c ≤ 'z')

/-- Python regex class `[0-9]` / `\d`. -/
def isAsciiDigit (c : Char) : Bool := '0' ≤ c && c ≤ '9'

/-- Python regex `\w` (word character), ASCII fragment: `[A-Za-z0-9_]`. -/
def isWordChar (c : Char) : Bool := isAsciiAlpha c || isAsciiDigit c || c = '_'

/-- Python `str.strip()` (ASCII whitespace). -/
def pyStrip (s : List Char) : List Char :=
  ((s.dropWhile isPyWs).reverse.dropWhile isPyWs).reverse

/-- Python `str.rstrip()` (ASCII whitespace). -/
def pyRstrip (s : List Char) : List Char :=
  (s.reverse.dropWhile isPyWs).reverse

/-- Replaces every maximal run of characters satisfying `p` by the single
character `rep`; the running `inRun` flag records whether the previous
character was part of such a run.  This is Python
`re.sub(r"X+", rep, s)` for a character class `X`. -/
def squeezeBy (p : Char → Bool) (rep : Char) : List Char → Bool → List Char
  | [], _ => []
  | c :: rest, inRun =>
    if p c then
      (if inRun then squeezeBy p rep rest true else rep :: squeezeBy p rep rest true)
    else c :: squeezeBy p rep rest false

/-! ## The pagination allocator (write_case, build.py lines 207-215)

Python:
    pages = max(1, len(pages_text))
    if vol_state["next_page"] + pages - 1 > vol_state["max_pages_per_volume"]:
        vol_state["current_volume"] += 1
        vol_state["next_page"] = 1
    vol = vol_state["current_volume"]
    p0  = vol_state["next_page"]
    p1  = p0 + pages - 1
    vol_state["next_page"] = p1 + 1
-/

/-- Persistent allocator state, `_data/volumes.json`
(`{"current_volume": 1, "next_page": 1, "max_pages_per_volume": 800}`). -/
structure VolState where
  current_volume : Nat
  next_page : Nat
  max_pages_per_volume : Nat
deriving DecidableEq, Repr

/-- Lines 208-215 of build.py: the rollover test and the allocation of one
contiguous page range.  Returns the mutated state together with
`(vol, page_start, page_end)`. -/
def reserve (st : VolState) (pageCount : Nat) : VolState × Nat × Nat × Nat :=
  let st1 :=
    if st.max_pages_per_volume < st.next_page + pageCount - 1 then
      { st with current_volume := st.current_volume + 1, next_page := 1 }
    else st
  let vol := st1.current_volume
  let p0 := st1.next_page
  let p1 := p0 + pageCount - 1
  ({ st1 with next_page := p1 + 1 }, vol, p0, p1)

/-- Sequential reservations, the shape of the per-document allocation in
`main`'s batch loop: each document reserves its range against the state
left by the previous one. -/
def reserveList (st : VolState) : List Nat → List (Nat × Nat × Nat) × VolState
  | [] => ([], st)
  | c :: cs =>
    let r := reserve st c
    let rest := reserveList r.1 cs
    (r.2 :: rest.1, rest.2)

/-- C3: when the pending range would overflow the current volume, the
allocator increments `current_volume` and resets `next_page` to 1 before
allocating, so the range is `1 .. page_count` of the next volume; it stays
within that volume whenever the document fits in a volume at all. -/
theorem reserve_rollover (st : VolState) (pc : Nat)
    (hpc : 1 ≤ pc)
    (hov : st.max_pages_per_volume < st.next_page + pc - 1) :
    (reserve st pc).2.1 = st.current_volume + 1 ∧
    (reserve st pc).2.2.1 = 1 ∧
    (reserve st pc).2.2.2 = pc ∧
    (reserve st pc).1.current_volume = st.current_volume + 1 ∧
    (reserve st pc).1.next_page = pc + 1 ∧
    (pc ≤ st.max_pages_per_volume →
      (reserve st pc).2.2.2 ≤ st.max_pages_per_volume) := by
  simp [reserve, if_pos hov]

/-- Witness for C3: the spec's own instance, `max_pages_per_volume = 800`,
`next_page = 790`, reserving 20 pages yields volume 2, range 1-20. -/
theorem reserve_rollover_witness :
    (reserve ⟨1, 790, 800⟩ 20).2.1 = 2 ∧
    (reserve ⟨1, 790, 800⟩ 20).2.2.1 = 1 ∧
    (reserve ⟨1, 790, 800⟩ 20).2.2.2 = 20 ∧
    (reserve ⟨1, 790, 800⟩ 20).2.2.2 ≤ 800 := by
  obtain ⟨h1, h2, h3, _, _, h6⟩ :=
    reserve_rollover ⟨1, 790, 800⟩ 20 (by decide) (by decide)
  exact ⟨h1, h2, h3, h6 (by decide)⟩

/-- C4 counterexample: the invariant `next_page ≤ max_pages_per_volume + 1`
is not preserved for every `page_count ≥ 1`.  From the freshly initialised
state (volume 1, next_page 1, max 800), which satisfies the invariant,
reserving an 801-page document rolls over and leaves `next_page = 802`,
violating the invariant. -/
theorem volstate_invariant_counterexample :
    (⟨1, 1, 800⟩ : VolState).next_page ≤ (⟨1, 1, 800⟩ : VolState).max_pages_per_volume + 1 ∧
    1 ≤ 801 ∧
    ¬ ((reserve ⟨1, 1, 800⟩ 801).1.next_page ≤
        (reserve ⟨1, 1, 800⟩ 801).1.max_pages_per_volume + 1) := by
  decide

/-- C4 amended: the invariant `next_page ≤ max_pages_per_volume + 1` is
preserved by one reservation (including rollover) for every `page_count`
with `1 ≤ page_count ≤ max_pages_per_volume`; documents larger than a
whole volume break it. -/
theorem reserve_preserves_invariant (st : VolState) (pc : Nat)
    (hinv : st.next_page ≤ st.max_pages_per_volume + 1)
    (hpc : 1 ≤ pc) (hfit : pc ≤ st.max_pages_per_volume) :
    (reserve st pc).1.next_page ≤ (reserve st pc).1.max_pages_per_volume + 1 := by
  unfold reserve
  by_cases hov : st.max_pages_per_volume < st.next_page + pc - 1
  · simp only [if_pos hov]
    omega
  · simp only [if_neg hov]
    omega

/-- Witness for C4 (amended): from the fresh state, a 3-page reservation
keeps the invariant. -/
theorem reserve_preserves_invariant_witness :
    (reserve ⟨1, 1, 800⟩ 3).1.next_page ≤
      (reserve ⟨1, 1, 800⟩ 3).1.max_pages_per_volume + 1 := by
  exact reserve_preserves_invariant ⟨1, 1, 800⟩ 3 (by decide) (by decide) (by decide)


/-- Characterisation of a rollover-free reservation sequence: starting from
`next_page = np`, reservation `k` gets the range starting at `np` plus the
sum of the preceding page counts, and the final `next_page` is `np` plus
the total.  The side condition `np + sum ≤ max + 1` rules every rollover
out. -/
theorem reserveList_spec (cs : List Nat) : ∀ (v np M : Nat),
    1 ≤ np → np + cs.sum ≤ M + 1 → (∀ c ∈ cs, 1 ≤ c) →
    (reserveList ⟨v, np, M⟩ cs).2 = ⟨v, np + cs.sum, M⟩ ∧
    (reserveList ⟨v, np, M⟩ cs).1.length = cs.length ∧
    ∀ k (hk : k < cs.length) (hk2 : k < (reserveList ⟨v, np, M⟩ cs).1.length),
      (reserveList ⟨v, np, M⟩ cs).1[k] =
        (v, np + (cs.take k).sum, np + (cs.take k).sum + cs[k] - 1) := by
  induction cs with
  | nil =>
    intro v np M _ _ _
    refine ⟨by simp [reserveList], by simp [reserveList], ?_⟩
    intro k hk
    exact absurd hk (by simp)
  | cons c cs ih =>
    intro v np M hnp hsum hc
    have hc1 : 1 ≤ c := hc c (List.mem_cons_self c cs)
    have hcs : ∀ x ∈ cs, 1 ≤ x := fun x hx => hc x (List.mem_cons_of_mem c hx)
    have hnov : ¬ (M < np + c - 1) := by
      simp [List.sum_cons] at hsum
      omega
    have hres : reserve ⟨v, np, M⟩ c = (⟨v, np + c, M⟩, v, np, np + c - 1) := by
      simp [reserve, hnov]
      omega
    have hsum2 : np + c + cs.sum ≤ M + 1 := by
      simp [List.sum_cons] at hsum
      omega
    obtain ⟨ih1, ih2, ih3⟩ := ih v (np + c) M (by omega) hsum2 hcs
    have hcons : (reserveList ⟨v, np, M⟩ (c :: cs)).1 =
        (v, np, np + c - 1) :: (reserveList ⟨v, np + c, M⟩ cs).1 := by
      simp [reserveList, hres]
    refine ⟨?_, ?_, ?_⟩
    · simp only [reserveList, hres]
      rw [ih1]
      simp [List.sum_cons]
      omega
    · rw [hcons, List.length_cons, ih2, List.length_cons]
    · intro k hk hk2
      match k with
      | 0 =>
        simp [hcons]
      | Nat.succ k =>
        have hk' : k < cs.length := by simpa using hk
        have hk2' : k < (reserveList ⟨v, np + c, M⟩ cs).1.length := by
          rw [ih2]; exact hk'
        simp only [hcons, List.getElem_cons_succ]
        rw [ih3 k hk' hk2']
        simp [List.sum_cons]
        omega

/-- C5: for a rollover-free sequence of reservations from a fresh state
(`next_page = 1`), the ranges all live in the starting volume, each has
length equal to its page count, they are pairwise disjoint and strictly
increasing, and the final `next_page` is the sum of the page counts plus
one. -/
theorem allocator_monotonicity (cs : List Nat) (v M : Nat)
    (hc : ∀ c ∈ cs, 1 ≤ c) (hsum : cs.sum ≤ M) :
    (reserveList ⟨v, 1, M⟩ cs).2.next_page = cs.sum + 1 ∧
    (reserveList ⟨v, 1, M⟩ cs).1.length = cs.length ∧
    (∀ k (hk : k < cs.length) (hk2 : k < (reserveList ⟨v, 1, M⟩ cs).1.length),
      ((reserveList ⟨v, 1, M⟩ cs).1[k]).1 = v ∧
      ((reserveList ⟨v, 1, M⟩ cs).1[k]).2.2 -
        ((reserveList ⟨v, 1, M⟩ cs).1[k]).2.1 + 1 = cs[k]) ∧
    (∀ i j (hi : i < (reserveList ⟨v, 1, M⟩ cs).1.length)
        (hj : j < (reserveList ⟨v, 1, M⟩ cs).1.length), i < j →
      ((reserveList ⟨v, 1, M⟩ cs).1[i]).2.2 <
        ((reserveList ⟨v, 1, M⟩ cs).1[j]).2.1) := by
  obtain ⟨h1, h2, h3⟩ := reserveList_spec cs v 1 M (le_refl 1) (by omega) hc
  refine ⟨by rw [h1]; exact Nat.add_comm 1 cs.sum, h2, ?_, ?_⟩
  · intro k hk hk2
    rw [h3 k hk hk2]
    have h4 : 1 ≤ cs[k] := hc _ (cs.getElem_mem hk)
    refine ⟨rfl, ?_⟩
    show 1 + (cs.take k).sum + cs[k] - 1 - (1 + (cs.take k).sum) + 1 = cs[k]
    omega
  · intro i j hi hj hij
    have hi' : i < cs.length := by rw [← h2]; exact hi
    have hj' : j < cs.length := by rw [← h2]; exact hj
    rw [h3 i hi' hi, h3 j hj' hj]
    have hci : 1 ≤ cs[i] := hc _ (cs.getElem_mem hi')
    have hstep : (cs.take (i + 1)).sum = (cs.take i).sum + cs[i] := by
      rw [List.sum_take_succ cs i hi']
    have hmono : (cs.take (i + 1)).sum ≤ (cs.take j).sum := by
      have h5 : cs.take j = cs.take (i + 1) ++ (cs.drop (i + 1)).take (j - (i + 1)) := by
        have hj3 : j = (i + 1) + (j - (i + 1)) := by omega
        conv_lhs => rw [hj3]
        exact List.take_add cs (i + 1) (j - (i + 1))
      rw [h5, List.sum_append]
      omega
    show 1 + (cs.take i).sum + cs[i] - 1 < 1 + (cs.take j).sum
    omega

/-- Witness for C5: reserving 3 then 5 pages from a fresh volume with
capacity 800 leaves `next_page` at 9. -/
theorem allocator_monotonicity_witness :
    (reserveList ⟨1, 1, 800⟩ [3, 5]).2.next_page = 3 + 5 + 1 :=
  (allocator_monotonicity [3, 5] 1 800
    (by intro c hc; fin_cases hc <;> decide) (by decide)).1

/-! ## Year derivation (derive_year, build.py lines 172-184)

Python:
    def derive_year(date_iso, date_h, docket, title):
        if date_iso:
            return date_iso[:4]
        m = re.search(r"\b(20\d{2})\b", date_h or "")
        if m:
            return m.group(1)
        m = re.search(r"-([0-9]{2})\b", docket or "")
        if m:
            return f"20{m.group(1)}"
        m = re.search(r"\b(20\d{2})\b", title or "")
        if m:
            return m.group(1)
        return "Unknown"
-/

/-- Tests the pattern `20\d{2}` followed by a word boundary at the head of
`s`, with `prev` the character just before the position (none at the start
of the string): boundary before, literal "20", two digits, boundary
after. -/
def try20xx (prev : Option Char) (s : List Char) : Option (List Char) :=
  match s with
  | '2' :: '0' :: c :: d :: rest =>
    if (match prev with | none => true | some p => !isWordChar p) &&
        isAsciiDigit c && isAsciiDigit d &&
        (match rest with | [] => true | e :: _ => !isWordChar e) then
      some ['2', '0', c, d]
    else none
  | _ => none

/-- Scanner for Python `re.search(r"\b(20\d{2})\b", s)`: tries every
position left to right, returning the leftmost match of the group. -/
def search20xxAux (prev : Option Char) : List Char → Option (List Char)
  | [] => none
  | c :: rest =>
    match try20xx prev (c :: rest) with
    | some y => some y
    | none => search20xxAux (some c) rest

/-- Python `re.search(r"\b(20\d{2})\b", s)`, group 1 of the match. -/
def search20xx (s : List Char) : Option (List Char) := search20xxAux none s

/-- Scanner for Python `re.search(r"-([0-9]{2})\b", s)`: a hyphen, two
digits, word boundary; leftmost match, group 1. -/
def searchDashYY : List Char → Option (List Char)
  | '-' :: a :: b :: rest =>
    if isAsciiDigit a && isAsciiDigit b &&
        (match rest with | [] => true | e :: _ => !isWordChar e) then
      some [a, b]
    else searchDashYY (a :: b :: rest)
  | _ :: rest => searchDashYY rest
  | [] => none

/-- build.py lines 172-184 (`derive_year`).  `date_iso` empty models
Python's falsy `None`/`""`. -/
def derive_year (date_iso date_h docket title : List Char) : List Char :=
  if date_iso ≠ [] then date_iso.take 4
  else
    match search20xx date_h with
    | some y => y
    | none =>
      match searchDashYY docket with
      | some yy => '2' :: '0' :: yy
      | none =>
        match search20xx title with
        | some y => y
        | none => "Unknown".toList

/-- Modelled from the spec and claim C7's words: a 4-digit year token
(`\b\d{4}\b`) found anywhere in a string, leftmost match.  This is the
behaviour the claim ascribes to fallback step (2); the source instead
matches only `\b20\d{2}\b`. -/
def specAnyYear4Aux (prev : Option Char) : List Char → Option (List Char)
  | [] => none
  | c :: rest =>
    match c :: rest with
    | a :: b :: c2 :: d :: rest2 =>
      if (match prev with | none => true | some p => !isWordChar p) &&
          isAsciiDigit a && isAsciiDigit b && isAsciiDigit c2 && isAsciiDigit d &&
          (match rest2 with | [] => true | e :: _ => !isWordChar e) then
        some [a, b, c2, d]
      else specAnyYear4Aux (some c) rest
    | _ => specAnyYear4Aux (some c) rest

/-- Modelled from the spec: leftmost `\b\d{4}\b` token (claim C7's
"any 4-digit year token"). -/
def specAnyYear4 (s : List Char) : Option (List Char) := specAnyYear4Aux none s

/-- C7 counterexample: the human date string "March 3 1999" contains the
4-digit year token 1999, but step (2) of the code's cascade only matches
years of the form 20xx, so derive_year falls through to "Unknown" rather
than returning "1999" as the claim asserts. -/
theorem derive_year_counterexample :
    specAnyYear4 ("March 3 1999".toList) = some ("1999".toList) ∧
    derive_year [] ("March 3 1999".toList) [] [] = "Unknown".toList ∧
    "Unknown".toList ≠ ("1999".toList) := by
  decide

/-- C7 amended: the fallback cascade runs in the claimed order, but step
(2) (and step (4)) only recognise 4-digit year tokens of the form
`20\d{2}` (years 2000-2099), not arbitrary 4-digit years; step (3)
recognises `-NN` year-like tokens in the docket and prepends "20". -/
theorem derive_year_cascade (date_iso date_h docket title : List Char) :
    (date_iso ≠ [] → derive_year date_iso date_h docket title = date_iso.take 4) ∧
    (date_iso = [] → ∀ y, search20xx date_h = some y →
      derive_year date_iso date_h docket title = y) ∧
    (date_iso = [] → search20xx date_h = none → ∀ yy, searchDashYY docket = some yy →
      derive_year date_iso date_h docket title = '2' :: '0' :: yy) ∧
    (date_iso = [] → search20xx date_h = none → searchDashYY docket = none →
      ∀ y, search20xx title = some y →
      derive_year date_iso date_h docket title = y) ∧
    (date_iso = [] → search20xx date_h = none → searchDashYY docket = none →
      search20xx title = none →
      derive_year date_iso date_h docket title = "Unknown".toList) := by
  refine ⟨fun h => by simp [derive_year, h], ?_, ?_, ?_, ?_⟩
  · intro h y hy
    simp [derive_year, h, hy]
  · intro h h2 yy hyy
    simp [derive_year, h, h2, hyy]
  · intro h h2 h3 y hy
    simp [derive_year, h, h2, h3, hy]
  · intro h h2 h3 h4
    simp [derive_year, h, h2, h3, h4]

/-- Witness for C7 (amended): a 20xx year inside the human date string is
returned by step (2). -/
theorem derive_year_cascade_witness :
    derive_year [] ("March 3rd, 2024".toList) [] [] = "2024".toList := by
  exact (derive_year_cascade [] ("March 3rd, 2024".toList) [] []).2.1 rfl
    ("2024".toList) (by decide)

/-! ## Unicode/whitespace normalisation and header parsing
(build.py lines 34-77)

Python:
    def uclean(s):
        s = unicodedata.normalize("NFKC", s or "")
        s = s.replace("：", ":").replace(" ", " ")
        s = re.sub(r"[ \t]+", " ", s)
        return s

    def norm_key(k):
        k = uclean(k).lower()
        k = re.sub(r"[^a-z]+", " ", k).strip()
        return k

NFKC normalisation is the identity on the ASCII fragment modelled here;
the fullwidth colon and the no-break space (which NFKC already folds onto
their ASCII forms, making the two `replace` calls idempotent) are mapped
explicitly. -/

/-- Per-character part of `uclean`: fullwidth colon to ':', no-break space
to ' ' (NFKC plus the two replace calls; identity on ASCII). -/
def ucleanChar (c : Char) : Char :=
  if c = '：' then ':' else if c = ' ' then ' ' else c

/-- build.py lines 34-38 (`uclean`). -/
def uclean (s : List Char) : List Char :=
  squeezeBy isSpTab ' ' (s.map ucleanChar) false

/-- build.py lines 40-43 (`norm_key`): `uclean`, lowercase, collapse
`[^a-z]+` runs to single spaces, strip. -/
def norm_key (k : List Char) : List Char :=
  pyStrip (squeezeBy (fun c => !('a' ≤ c && c ≤ 'z')) ' ' ((uclean k).map Char.toLower) false)

/-- build.py lines 17-20: the ten canonical header fields. -/
def canonicalKeys : List (List Char) :=
  ["Case Title", "Docket", "Decision Date", "Court", "Judge",
   "Disposition", "Keywords", "Summary", "Reporter Override", "Slip Override"].map
    String.toList

/-- build.py lines 21-32: alias table, normalised alias to canonical
field. -/
def aliases : List (List Char × List Char) :=
  [("title", "Case Title"), ("case title", "Case Title"), ("case", "Case Title"),
   ("docket", "Docket"),
   ("decision date", "Decision Date"), ("date", "Decision Date"),
   ("decided", "Decision Date"),
   ("court", "Court"),
   ("judge", "Judge"),
   ("disposition", "Disposition"), ("outcome", "Disposition"),
   ("keywords", "Keywords"), ("tags", "Keywords"),
   ("summary", "Summary"),
   ("reporter override", "Reporter Override"),
   ("slip override", "Slip Override")].map
    (fun p => (p.1.toList, p.2.toList))

/-- Python `ALIASES.get(k)`: association-list lookup. -/
def lookupAL (al : List (List Char × List Char)) (k : List Char) : Option (List Char) :=
  (al.find? (fun p => p.1 = k)).map (fun p => p.2)

/-- The fixed constant build.py line 76 assigns to the Court field. -/
def courtConst : List Char :=
  "Mayflower District Court, District for the County of Clark".toList

/-- The canonical key "Court". -/
def courtKey : List Char := "Court".toList

/-- The canonical key "Case Title". -/
def caseTitleKey : List Char := "Case Title".toList

/-! ### The pair scanner (pair_rx, build.py line 66)

Python:
    pair_rx = re.compile(
      r"([A-Za-z .]+?)\s*:\s*(.*?)(?=(?:\n| )+[A-Za-z][A-Za-z .]+?\s*:|\Z)",
      re.S)

`finditer` semantics: scan positions left to right; at a position, the
lazy group 1 takes the shortest run of `[A-Za-z .]` characters followed
by optional whitespace and a colon; the greedy `\s*` after the colon
consumes the maximal whitespace run (it is never backtracked, because the
lazy group 2 can always succeed by extending to the end of the string);
group 2 then takes the shortest extension after which the lookahead
`(?:\n| )+[A-Za-z][A-Za-z .]+?\s*:` succeeds or the string ends.  The
next scan resumes where group 2 stopped.  This reproduces, in particular,
the behaviour checked against CPython that in "Key:\nDocket: x" the value
of "Key" swallows "Docket: x" (the separating whitespace is consumed by
the greedy `\s*`, so the lookahead can never fire at an empty value). -/

/-- Regex class `[A-Za-z .]` of the key group. -/
def isKeyChar (c : Char) : Bool := isAsciiAlpha c || c = ' ' || c = '.'

/-- Matches `\s*:` at the head of `s` (greedy whitespace then a colon);
returns the rest after the colon. -/
def stripColon (s : List Char) : Option (List Char) :=
  match s.dropWhile isPyWs with
  | ':' :: r => some r
  | _ => none

/-- Tail of the lookahead after its initial `[A-Za-z]`: lazily one or more
`[A-Za-z .]` characters, then `\s*:` (an existence test, as inside a
lookahead). -/
def keyTail : List Char → Bool
  | [] => false
  | c :: rest => isKeyChar c && ((stripColon rest).isSome || keyTail rest)

/-- The lookahead `(?:\n| )+[A-Za-z][A-Za-z .]+?\s*:` tested at the head
of `s`. -/
def lookaheadB (s : List Char) : Bool :=
  let run := s.takeWhile (fun c => c = '\n' || c = ' ')
  let rest := s.dropWhile (fun c => c = '\n' || c = ' ')
  !run.isEmpty &&
    (match rest with
     | c :: r => isAsciiAlpha c && keyTail r
     | [] => false)

/-- Lazy group 1 `([A-Za-z .]+?)\s*:`: grows the key one character at a
time, testing for `\s*:` after each extension; returns the raw key and
the rest after the colon. -/
def matchKey (acc : List Char) : List Char → Option (List Char × List Char)
  | [] => none
  | c :: rest =>
    if isKeyChar c then
      match stripColon rest with
      | some r => some (acc ++ [c], r)
      | none => matchKey (acc ++ [c]) rest
    else none

/-- Lazy group 2 `(.*?)` bounded by the lookahead or the end of the
string: the shortest prefix after which `lookaheadB` holds or the string
ends.  Returns the value characters and the rest (the lookahead position,
where scanning resumes). -/
def grabVal : List Char → List Char × List Char
  | [] => ([], [])
  | c :: rest =>
    if lookaheadB (c :: rest) then ([], c :: rest)
    else
      let vr := grabVal rest
      (c :: vr.1, vr.2)

/-- Attempts a full `pair_rx` match at the head of `s`. -/
def tryPair (s : List Char) : Option (List Char × List Char × List Char) :=
  match matchKey [] s with
  | none => none
  | some (k, afterColon) =>
    let vr := grabVal (afterColon.dropWhile isPyWs)
    some (k, vr.1, vr.2)

/-- Scanner for `pair_rx.finditer`, fuel-bounded (every step either
advances one position or consumes a whole match, which is at least two
characters, so the input length is enough fuel). -/
def findPairsAux : Nat → List Char → List (List Char × List Char)
  | 0, _ => []
  | _, [] => []
  | fuel + 1, c :: rest =>
    match tryPair (c :: rest) with
    | some (k, v, r) => (k, v) :: findPairsAux fuel r
    | none => findPairsAux fuel rest

/-- Python `pair_rx.finditer(block)` as the list of `(group1, group2)`
pairs in match order. -/
def findPairs (s : List Char) : List (List Char × List Char) :=
  findPairsAux (s.length + 1) s

/-- Python `"\n".join(xs)` (also used by the compositor below). -/
def joinNl : List (List Char) → List Char
  | [] => []
  | [e] => e
  | e :: es => e ++ '\n' :: joinNl es

/-- Substring test: does `pat` occur in `s` (Python `pat in s`)? -/
def containsSub (pat : List Char) : List Char → Bool
  | [] => pat.isEmpty
  | c :: rest => pat.isPrefixOf (c :: rest) || containsSub pat rest

/-- Characters of `s` before the leftmost occurrence of `pat`
(Python `s.split(pat, 1)[0]` when `pat` occurs). -/
def takeBefore (pat : List Char) : List Char → List Char
  | [] => []
  | c :: rest =>
    if pat.isPrefixOf (c :: rest) then []
    else c :: takeBefore pat rest

/-- The value clean-up of build.py lines 69-71: strip, then cut an
inline ` #` comment and right-strip when one is present. -/
def cleanVal (v : List Char) : List Char :=
  let v := pyStrip v
  if containsSub (" #".toList) v then
    pyRstrip (takeBefore (" #".toList) v) else v

/-- Dict update for the fixed-key header record: replaces the value at
key `k` (Python `hdr[canon] = val` on a dict whose keys are exactly
CANONICAL_KEYS). -/
def setKey (h : List (List Char × List Char)) (k v : List Char) :
    List (List Char × List Char) :=
  h.map (fun p => if p.1 = k then (k, v) else p)

/-- One iteration of the `for m in pair_rx.finditer(block)` loop of
build.py lines 67-74: strip the raw key, clean the value, and when the
normalised key has a canonical alias, overwrite that field with the
ucleaned value. -/
def applyPair (h : List (List Char × List Char)) (p : List Char × List Char) :
    List (List Char × List Char) :=
  match lookupAL aliases (norm_key (pyStrip p.1)) with
  | some canon => setKey h canon (uclean (cleanVal p.2))
  | none => h

/-- build.py lines 62-77 (`parse_header_from_lines`): start from every
canonical key mapped to the empty string, fold the matched pairs over the
record in match order, then overwrite Court with the fixed constant. -/
def parse_header_from_lines (headerLines : List (List Char)) :
    List (List Char × List Char) :=
  let block := uclean (joinNl headerLines)
  let hdr0 := canonicalKeys.map (fun k => (k, ([] : List Char)))
  let hdr := (findPairs block).foldl applyPair hdr0
  setKey hdr courtKey courtConst

/-! ### Header region detection (split_header_body, build.py lines 45-60) -/

/-- Python `str.splitlines()` on the ASCII fragment: split at `\r\n`,
`\n` or `\r`, with no trailing empty line. -/
def splitLinesAux : List Char → List Char → List (List Char)
  | [], [] => []
  | [], acc => [acc.reverse]
  | '\r' :: '\n' :: rest, acc => acc.reverse :: splitLinesAux rest []
  | '\n' :: rest, acc => acc.reverse :: splitLinesAux rest []
  | '\r' :: rest, acc => acc.reverse :: splitLinesAux rest []
  | c :: rest, acc => splitLinesAux rest (c :: acc)

/-- Python `s.splitlines()`. -/
def splitLines (s : List Char) : List (List Char) := splitLinesAux s []

/-- Python `re.search(r"[A-Za-z][A-Za-z .]+\s*:", ln)` as an existence
test: some position starts a letter followed by one or more `[A-Za-z .]`
characters, optional whitespace and a colon (build.py line 54). -/
def hasKeyToken : List Char → Bool
  | [] => false
  | c :: rest => (isAsciiAlpha c && keyTail rest) || hasKeyToken rest

/-- The header-collecting loop of build.py lines 51-58: take up to 60
leading lines whose stripped text contains a key token; returns the
collected (stripped) header lines and the remaining raw lines. -/
def takeHeaderLines : Nat → List (List Char) → List (List Char) × List (List Char)
  | _, [] => ([], [])
  | 0, ls => ([], ls)
  | n + 1, l :: ls =>
    let ln := pyStrip l
    if hasKeyToken ln then
      let r := takeHeaderLines n ls
      (ln :: r.1, r.2)
    else ([], l :: ls)

/-- build.py lines 45-60 (`split_header_body`): skip leading blank lines,
collect the header region, and join the remaining lines as the body. -/
def split_header_body (firstPageText : List Char) :
    List (List Char) × List Char :=
  let lines := splitLines firstPageText
  let ls := lines.dropWhile (fun l => (pyStrip l).isEmpty)
  let r := takeHeaderLines 60 ls
  (r.1, joinNl r.2)

/-! ### Title post-processing (write_case, build.py lines 193-195)

Python:
    title = re.sub(r"\s+", " ",
        (hdr.get("Case Title") or pdf.stem.replace("_", " ").title())).strip()
    if len(title) > 160:
        title = title[:160].rstrip()
-/

/-- Python `str.title()` on the ASCII fragment: a cased character is
uppercased when the previous character is not a letter, lowercased
otherwise. -/
def pyTitleCase : List Char → Bool → List Char
  | [], _ => []
  | c :: rest, prevAlpha =>
    (if isAsciiAlpha c then (if prevAlpha then c.toLower else c.toUpper) else c) ::
      pyTitleCase rest (isAsciiAlpha c)

/-- The filename-derived fallback title: `pdf.stem.replace("_"," ").title()`. -/
def stemTitle (stem : List Char) : List Char :=
  pyTitleCase (stem.map (fun c => if c = '_' then ' ' else c)) false

/-- build.py lines 193-195: whitespace-collapse and strip the extracted
Case Title (or the filename fallback when it is empty), then truncate to
160 characters (right-stripped) when longer. -/
def caseTitleOf (hdrTitle stem : List Char) : List Char :=
  let base := if hdrTitle.isEmpty then stemTitle stem else hdrTitle
  let t := pyStrip (squeezeBy isPyWs ' ' base false)
  if 160 < t.length then pyRstrip (t.take 160) else t

/-! ### write_case and the batch loop (build.py lines 186-215, 267-273)

The embedding of `write_case` keeps the parts the claims are about: the
zero-page guard (line 188-189), header extraction (190-191), the title
post-processing (193-195) and the page-range allocation (207-215).  The
fields of the emitted record that no claim mentions (citation strings,
judge, dates, slug, the rendered HTML and the on-disk writes, lines
196-265) are omitted; none of them affects the volume state, the guard or
the title. -/

/-- Python `hdr.get(k)` with the empty string as the falsy default. -/
def lookupD (h : List (List Char × List Char)) (k : List Char) : List Char :=
  ((h.find? (fun p => p.1 = k)).map (fun p => p.2)).getD []

/-- The projection of the record `write_case` returns that the claims
mention. -/
structure CaseItem where
  title : List Char
  volume : Nat
  page_start : Nat
  page_end : Nat
deriving DecidableEq, Repr

/-- build.py lines 186-215 restricted as described above: `None` on a
zero-page document (no state change), otherwise the record and the
mutated volume state. -/
def write_case (stem : List Char) (pagesText : List (List Char)) (st : VolState) :
    Option (CaseItem × VolState) :=
  match pagesText with
  | [] => none
  | p0 :: _ =>
    let hb := split_header_body p0
    let hdr := parse_header_from_lines hb.1
    let title := caseTitleOf (lookupD hdr caseTitleKey) stem
    let res := reserve st (max 1 pagesText.length)
    some ({ title := title, volume := res.2.1,
            page_start := res.2.2.1, page_end := res.2.2.2 }, res.1)

/-- build.py lines 267-273: the batch loop of `main`, which appends an
index item for each document whose `write_case` returns a record and
threads the volume state through the batch. -/
def processAll : List (List Char × List (List Char)) → VolState →
    List CaseItem × VolState
  | [], st => ([], st)
  | d :: rest, st =>
    match write_case d.1 d.2 st with
    | some r =>
      let t := processAll rest r.2
      (r.1 :: t.1, t.2)
    | none => processAll rest st

/-- C8: a document whose page extraction yields zero pages is skipped
entirely: `write_case` returns None, the volume state is untouched (no
page range is reserved), no record or index entry is produced, and the
batch continues with the remaining documents exactly as if the document
were absent. -/
theorem empty_document_skipped (stem : List Char)
    (rest : List (List Char × List (List Char))) (st : VolState) :
    write_case stem [] st = none ∧
    processAll ((stem, []) :: rest) st = processAll rest st :=
  ⟨rfl, rfl⟩

/-! ### Properties of the header record (claims C9, C10) -/

/-- Updating one key leaves the key list of the record unchanged. -/
theorem keys_setKey (h : List (List Char × List Char)) (k v : List Char) :
    (setKey h k v).map (fun p => p.1) = h.map (fun p => p.1) := by
  induction h with
  | nil => rfl
  | cons p t ih =>
    simp only [setKey, List.map_cons] at ih ⊢
    by_cases hp : p.1 = k
    · simp [hp, ih]
    · simp [hp, ih]

/-- Applying one matched pair leaves the key list unchanged. -/
theorem keys_applyPair (h : List (List Char × List Char)) (p : List Char × List Char) :
    (applyPair h p).map (fun q => q.1) = h.map (fun q => q.1) := by
  unfold applyPair
  cases lookupAL aliases (norm_key (pyStrip p.1)) with
  | none => rfl
  | some canon => exact keys_setKey h canon _

/-- Folding any pair list leaves the key list unchanged. -/
theorem keys_foldl (pairs : List (List Char × List Char)) :
    ∀ h : List (List Char × List Char),
    (pairs.foldl applyPair h).map (fun q => q.1) = h.map (fun q => q.1) := by
  induction pairs with
  | nil => intro h; rfl
  | cons p ps ih =>
    intro h
    rw [List.foldl_cons, ih (applyPair h p), keys_applyPair]

/-- A key present in the record always has a value. -/
theorem lookupAL_isSome (h : List (List Char × List Char)) (k : List Char)
    (hk : k ∈ h.map (fun p => p.1)) : ∃ v, lookupAL h k = some v := by
  induction h with
  | nil => simp at hk
  | cons p t ih =>
    by_cases hp : p.1 = k
    · exact ⟨p.2, by simp [lookupAL, List.find?, hp]⟩
    · have ht : k ∈ t.map (fun p => p.1) := by
        simp only [List.map_cons, List.mem_cons] at hk
        exact hk.resolve_left (fun he => hp he.symm)
      obtain ⟨v, hv⟩ := ih ht
      exact ⟨v, by simpa [lookupAL, List.find?, hp] using hv⟩

/-- Reading back the key just set. -/
theorem lookupAL_setKey_self (h : List (List Char × List Char)) (k v : List Char)
    (hk : k ∈ h.map (fun p => p.1)) : lookupAL (setKey h k v) k = some v := by
  induction h with
  | nil => simp at hk
  | cons p t ih =>
    by_cases hp : p.1 = k
    · simp [setKey, lookupAL, List.find?, hp]
    · have ht : k ∈ t.map (fun p => p.1) := by
        simp only [List.map_cons, List.mem_cons] at hk
        exact hk.resolve_left (fun he => hp he.symm)
      have := ih ht
      simpa [setKey, lookupAL, List.find?, hp] using this

/-- Cons unfolding of the association-list lookup. -/
theorem lookupAL_cons (p : List Char × List Char) (t : List (List Char × List Char))
    (k : List Char) :
    lookupAL (p :: t) k = if p.1 = k then some p.2 else lookupAL t k := by
  by_cases hp : p.1 = k
  · rw [if_pos hp]
    unfold lookupAL
    rw [List.find?_cons_of_pos _ (by simp [hp])]
    rfl
  · rw [if_neg hp]
    unfold lookupAL
    rw [List.find?_cons_of_neg _ (by simp [hp])]

/-- Setting a different key does not change a lookup. -/
theorem lookupAL_setKey_ne (h : List (List Char × List Char)) (k k2 v : List Char)
    (hne : k ≠ k2) : lookupAL (setKey h k2 v) k = lookupAL h k := by
  induction h with
  | nil => rfl
  | cons p t ih =>
    show lookupAL ((if p.1 = k2 then (k2, v) else p) :: setKey t k2 v) k = _
    rw [lookupAL_cons p t k]
    by_cases hp : p.1 = k2
    · rw [if_pos hp, lookupAL_cons]
      have h1 : ¬ ((k2, v).1 = k) := fun he => hne (he.symm)
      rw [if_neg h1, ih]
      have h2 : ¬ (p.1 = k) := by rw [hp]; exact fun he => hne he.symm
      rw [if_neg h2]
    · rw [if_neg hp, lookupAL_cons]
      by_cases hk : p.1 = k
      · rw [if_pos hk, if_pos hk]
      · rw [if_neg hk, if_neg hk, ih]

/-- One assignment of the `finditer` loop, build.py lines 72-74, as it
acts on the surviving value for a fixed canonical key `k`. -/
def lastStep (k : List Char) (acc : Option (List Char)) (p : List Char × List Char) :
    Option (List Char) :=
  if lookupAL aliases (norm_key (pyStrip p.1)) = some k
  then some (uclean (cleanVal p.2)) else acc

/-- The value kept for key `k` after the `finditer` loop: the cleaned
value of the last pair whose alias resolves to `k` (Python's repeated
`hdr[canon] = uclean(val)` keeps the last assignment). -/
def lastMatchVal (pairs : List (List Char × List Char)) (k : List Char) :
    Option (List Char) :=
  pairs.foldl (lastStep k) none

/-- Accumulator version of `lastMatchVal`: the fold returns the last
match when there is one and the initial accumulator otherwise. -/
theorem lastMatchVal_acc (k : List Char) (pairs : List (List Char × List Char)) :
    ∀ a : Option (List Char),
    pairs.foldl (lastStep k) a = Option.elim (lastMatchVal pairs k) a some := by
  induction pairs with
  | nil => intro a; rfl
  | cons p ps ih =>
    intro a
    rw [List.foldl_cons, ih (lastStep k a p)]
    have hr : lastMatchVal (p :: ps) k =
        Option.elim (lastMatchVal ps k) (lastStep k none p) some := by
      unfold lastMatchVal
      rw [List.foldl_cons, ih (lastStep k none p)]
      rfl
    rw [hr]
    by_cases hc : lookupAL aliases (norm_key (pyStrip p.1)) = some k
    · have h1 : lastStep k a p = some (uclean (cleanVal p.2)) := by
        unfold lastStep; rw [if_pos hc]
      have h2 : lastStep k none p = some (uclean (cleanVal p.2)) := by
        unfold lastStep; rw [if_pos hc]
      rw [h1, h2]
      cases lastMatchVal ps k <;> rfl
    · have h1 : lastStep k a p = a := by
        unfold lastStep; rw [if_neg hc]
      have h2 : lastStep k none p = none := by
        unfold lastStep; rw [if_neg hc]
      rw [h1, h2]
      cases lastMatchVal ps k <;> rfl

/-- The header fold computes exactly the last-match-wins value for every
key present in the record. -/
theorem foldl_applyPair_lookup (pairs : List (List Char × List Char)) :
    ∀ (h : List (List Char × List Char)) (k : List Char),
    k ∈ h.map (fun p => p.1) →
    lookupAL (pairs.foldl applyPair h) k =
      Option.elim (lastMatchVal pairs k) (lookupAL h k) some := by
  induction pairs with
  | nil => intro h k _; rfl
  | cons p ps ih =>
    intro h k hk
    have hk2 : k ∈ (applyPair h p).map (fun p => p.1) := by
      rw [keys_applyPair]; exact hk
    rw [List.foldl_cons, ih (applyPair h p) k hk2]
    have hstep : lastMatchVal (p :: ps) k =
        Option.elim (lastMatchVal ps k) (lastStep k none p) some := by
      unfold lastMatchVal
      rw [List.foldl_cons, lastMatchVal_acc k ps (lastStep k none p)]
      rfl
    by_cases hc : lookupAL aliases (norm_key (pyStrip p.1)) = some k
    · have hset : lookupAL (applyPair h p) k = some (uclean (cleanVal p.2)) := by
        unfold applyPair
        rw [hc]
        exact lookupAL_setKey_self h k _ hk
      have hsl : lastStep k none p = some (uclean (cleanVal p.2)) := by
        unfold lastStep; rw [if_pos hc]
      rw [hstep, hsl]
      cases hlm : lastMatchVal ps k <;> simp [hset]
    · have hset : lookupAL (applyPair h p) k = lookupAL h k := by
        unfold applyPair
        cases hal : lookupAL aliases (norm_key (pyStrip p.1)) with
        | none => rfl
        | some canon =>
          have hne : k ≠ canon := by
            intro he
            exact hc (by rw [hal, he])
          exact lookupAL_setKey_ne h k canon _ hne
      have hsl : lastStep k none p = none := by
        unfold lastStep; rw [if_neg hc]
      rw [hstep, hsl]
      cases hlm : lastMatchVal ps k <;> simp [hset]

/-- Unfolded form of `parse_header_from_lines`. -/
theorem parse_header_eq (lines : List (List Char)) :
    parse_header_from_lines lines =
      setKey ((findPairs (uclean (joinNl lines))).foldl applyPair
        (canonicalKeys.map (fun k => (k, ([] : List Char))))) courtKey courtConst := rfl

/-- Lookup in the freshly initialised record. -/
theorem lookupAL_init (ks : List (List Char)) (k : List Char) (hk : k ∈ ks) :
    lookupAL (ks.map (fun k2 => (k2, ([] : List Char)))) k = some [] := by
  induction ks with
  | nil => simp at hk
  | cons a t ih =>
    rw [List.map_cons, lookupAL_cons]
    by_cases ha : a = k
    · rw [if_pos ha]
    · rw [if_neg ha]
      rcases List.mem_cons.mp hk with he | ht
      · exact absurd he.symm ha
      · exact ih ht

/-- The key list of the freshly initialised record. -/
theorem keys_init :
    (canonicalKeys.map (fun k => (k, ([] : List Char)))).map (fun p => p.1) =
      canonicalKeys := by
  rw [List.map_map]
  exact List.map_id canonicalKeys

/-- C9: for every input header-line sequence, the returned record has
every one of the ten canonical fields present (with the explicit empty
string when no pair matched the field), and its Court field is the fixed
constant regardless of the source text. -/
theorem header_record_complete (lines : List (List Char)) :
    (∀ k ∈ canonicalKeys, ∃ v, lookupAL (parse_header_from_lines lines) k = some v) ∧
    lookupAL (parse_header_from_lines lines) courtKey = some courtConst ∧
    (∀ k ∈ canonicalKeys, k ≠ courtKey →
      lastMatchVal (findPairs (uclean (joinNl lines))) k = none →
      lookupAL (parse_header_from_lines lines) k = some []) := by
  have hkeys : (parse_header_from_lines lines).map (fun p => p.1) = canonicalKeys := by
    rw [parse_header_eq, keys_setKey, keys_foldl, keys_init]
  have hkeysf : (((findPairs (uclean (joinNl lines))).foldl applyPair
      (canonicalKeys.map (fun k => (k, ([] : List Char)))))).map (fun p => p.1) =
      canonicalKeys := by
    rw [keys_foldl, keys_init]
  refine ⟨?_, ?_, ?_⟩
  · intro k hk
    exact lookupAL_isSome _ k (by rw [hkeys]; exact hk)
  · rw [parse_header_eq]
    exact lookupAL_setKey_self _ _ _ (by rw [hkeysf]; decide)
  · intro k hk hkc hnm
    rw [parse_header_eq, lookupAL_setKey_ne _ _ _ _ hkc,
      foldl_applyPair_lookup _ _ k (by rw [keys_init]; exact hk), hnm]
    exact lookupAL_init canonicalKeys k hk

/-- Witness for C9: on a header containing only a Docket line, the Judge
field is present with the explicit empty value, and Court is the
constant. -/
theorem header_record_complete_witness :
    lookupAL (parse_header_from_lines ["Docket: D-1".toList]) ("Judge".toList) =
      some [] ∧
    lookupAL (parse_header_from_lines ["Docket: D-1".toList]) courtKey =
      some courtConst := by
  refine ⟨?_, (header_record_complete ["Docket: D-1".toList]).2.1⟩
  exact (header_record_complete ["Docket: D-1".toList]).2.2 ("Judge".toList)
    (by decide) (by decide) (by decide)

/-- C10 counterexample: when the Court field is matched twice, the
extractor does not keep the last occurrence's value "B"; it returns the
fixed constant, because Court is overwritten after the parse loop. -/
theorem last_occurrence_court_counterexample :
    findPairs (uclean (joinNl ["Court: A".toList, "Court: B".toList])) =
      [("Court".toList, "A".toList), ("Court".toList, "B".toList)] ∧
    lookupAL (parse_header_from_lines ["Court: A".toList, "Court: B".toList])
      courtKey = some courtConst ∧
    courtConst ≠ "B".toList := by
  decide

/-- C10 amended: for every canonical field other than Court, when the
field is matched by one or more pairs, the extractor keeps the cleaned
value of the last matched occurrence in document order; Court is instead
overwritten with the fixed constant. -/
theorem last_occurrence_wins (lines : List (List Char)) (k : List Char)
    (hk : k ∈ canonicalKeys) (hkc : k ≠ courtKey) (v : List Char)
    (hv : lastMatchVal (findPairs (uclean (joinNl lines))) k = some v) :
    lookupAL (parse_header_from_lines lines) k = some v := by
  rw [parse_header_eq, lookupAL_setKey_ne _ _ _ _ hkc,
    foldl_applyPair_lookup _ _ k (by rw [keys_init]; exact hk), hv]
  rfl

/-- Witness for C10 (amended): two Judge lines; the second one's value
wins. -/
theorem last_occurrence_wins_witness :
    lookupAL (parse_header_from_lines ["Judge: X".toList, "Judge: Y".toList])
      ("Judge".toList) = some ("Y".toList) :=
  last_occurrence_wins ["Judge: X".toList, "Judge: Y".toList] ("Judge".toList)
    (by decide) (by decide) ("Y".toList) (by decide)

/-! ### Claim C6: title re-extraction -/

/-- Characters of `s` after the leftmost occurrence of `pat` ([] when
absent). -/
def afterToken (pat : List Char) : List Char → List Char
  | [] => []
  | c :: rest =>
    if pat.isPrefixOf (c :: rest) then (c :: rest).drop pat.length
    else afterToken pat rest

/-- Tests whether a recognised key token (an alias name, optionally
followed by whitespace, then a colon) starts at the head of `s`. -/
def isAliasKeyAt (s : List Char) : Bool :=
  aliases.any (fun a =>
    a.1.isPrefixOf (s.map Char.toLower) &&
      (stripColon ((s.map Char.toLower).drop a.1.length)).isSome)

/-- Characters of `s` before the next recognised key token. -/
def takeUntilKeyToken : List Char → List Char
  | [] => []
  | c :: rest => if isAliasKeyAt (c :: rest) then [] else c :: takeUntilKeyToken rest

/-- Modelled from the spec: the bounded re-extraction the spec (section
4.1) and claim C6 describe for an empty or over-long Case Title - "search
for text between the \"Case Title:\" token and the next recognized key
token, collapsing internal whitespace".  No such step exists in
build.py; lines 193-195 instead fall back to the filename stem when the
title is empty and truncate it to 160 characters when longer. -/
def specReextractTitle (block : List Char) : List Char :=
  pyStrip (squeezeBy isPyWs ' '
    (takeUntilKeyToken (afterToken ("Case Title:".toList) block)) false)

set_option maxRecDepth 20000 in
/-- C6 counterexample: a header whose Case Title value is 170 characters
long.  The claimed re-extraction (text between the "Case Title:" token
and the next recognised key token, whitespace-collapsed) yields all 170
characters, but `write_case` instead truncates the title to its first
160 characters, so the re-extracted text is not used as the title. -/
theorem title_reextraction_counterexample :
    (write_case ("stem".toList)
        [("Case Title: ".toList ++ List.replicate 170 'a')] ⟨1, 1, 800⟩).map
        (fun r => r.1.title) = some (List.replicate 160 'a') ∧
    specReextractTitle (uclean (joinNl (split_header_body
        ("Case Title: ".toList ++ List.replicate 170 'a')).1)) =
      List.replicate 170 'a' ∧
    (List.replicate 160 'a' : List Char) ≠ List.replicate 170 'a' := by
  decide

/-- Right-stripping only removes a suffix. -/
theorem pyRstrip_isPre (s : List Char) : pyRstrip s <+: s := by
  have h := List.reverse_prefix.mpr (List.dropWhile_suffix (l := s.reverse) isPyWs)
  simpa using h

/-- C6 amended: no re-extraction is attempted.  When the extracted Case
Title is empty the title is computed from the filename stem (underscores
to spaces, title-cased, then the same clean-up); when the
whitespace-collapsed title exceeds 160 characters the title equals
exactly its first 160 characters, right-stripped (hence a prefix of it).
The title never exceeds 160 characters. -/
theorem title_fallback_truncation (hdrTitle stem : List Char) :
    (hdrTitle = [] → caseTitleOf hdrTitle stem =
      (let t := pyStrip (squeezeBy isPyWs ' ' (stemTitle stem) false)
       if 160 < t.length then pyRstrip (t.take 160) else t)) ∧
    (hdrTitle ≠ [] →
      160 < (pyStrip (squeezeBy isPyWs ' ' hdrTitle false)).length →
      caseTitleOf hdrTitle stem =
        pyRstrip ((pyStrip (squeezeBy isPyWs ' ' hdrTitle false)).take 160) ∧
      caseTitleOf hdrTitle stem <+: pyStrip (squeezeBy isPyWs ' ' hdrTitle false)) ∧
    (caseTitleOf hdrTitle stem).length ≤ 160 := by
  refine ⟨?_, ?_, ?_⟩
  · intro he
    subst he
    rfl
  · intro hne hlong
    have h0 : hdrTitle.isEmpty = false := by
      cases hdrTitle with
      | nil => exact absurd rfl hne
      | cons c t => rfl
    have hbase : caseTitleOf hdrTitle stem =
        pyRstrip ((pyStrip (squeezeBy isPyWs ' ' hdrTitle false)).take 160) := by
      simp only [caseTitleOf, h0, Bool.false_eq_true, if_false, if_pos hlong]
    refine ⟨hbase, ?_⟩
    rw [hbase]
    exact (pyRstrip_isPre _).trans (List.take_prefix _ _)
  · unfold caseTitleOf
    by_cases hlong : 160 <
        (pyStrip (squeezeBy isPyWs ' '
          (if hdrTitle.isEmpty then stemTitle stem else hdrTitle) false)).length
    · simp only [if_pos hlong]
      have h1 := (pyRstrip_isPre ((pyStrip (squeezeBy isPyWs ' '
          (if hdrTitle.isEmpty then stemTitle stem else hdrTitle) false)).take 160)).length_le
      have h2 := List.length_take_le 160 (pyStrip (squeezeBy isPyWs ' '
          (if hdrTitle.isEmpty then stemTitle stem else hdrTitle) false))
      omega
    · simp only [if_neg hlong]
      omega

set_option maxRecDepth 20000 in
/-- Witness for C6 (amended): a 170-character extracted title is cut to
the 160-character prefix, and an empty title uses the stem fallback. -/
theorem title_fallback_truncation_witness :
    caseTitleOf (List.replicate 170 'a') ("stem".toList) =
      pyRstrip ((pyStrip (squeezeBy isPyWs ' '
        (List.replicate 170 'a') false)).take 160) ∧
    caseTitleOf [] ("doe_v_roe".toList) =
      (let t := pyStrip (squeezeBy isPyWs ' ' (stemTitle ("doe_v_roe".toList)) false)
       if 160 < t.length then pyRstrip (t.take 160) else t) := by
  constructor
  · exact ((title_fallback_truncation (List.replicate 170 'a') ("stem".toList)).2.1
      (by decide) (by decide)).1
  · exact (title_fallback_truncation [] ("doe_v_roe".toList)).1 rfl

/-! ## Paragraph reflow (normalize_blocks, build.py lines 83-92)

Python:
    def normalize_blocks(raw):
        raw = raw.replace("\r\n", "\n").replace("\r", "\n")
        chunks = re.split(r"\n{2,}", raw)
        blocks = []
        for c in chunks:
            c = c.strip()
            if not c:
                continue
            blocks.append(re.sub(r"[ \t]*\n[ \t]*", " ", c))
        return blocks
-/

/-- Line-ending normalisation: `\r\n` to `\n`, then remaining `\r` to
`\n` (the two sequential `replace` calls). -/
def normEol : List Char → List Char
  | [] => []
  | '\r' :: '\n' :: rest => '\n' :: normEol rest
  | '\r' :: rest => '\n' :: normEol rest
  | c :: rest => c :: normEol rest

/-- Python `re.split(r"\n{2,}", s)`: split at maximal runs of two or more
newlines (`skipRun` true while consuming the remainder of a separator
run); empty chunks are kept, as `re.split` keeps them. -/
def sbAux : List Char → Bool → List Char → List (List Char)
  | [], true, _ => [[]]
  | [], false, acc => [acc.reverse]
  | '\n' :: rest, true, _ => sbAux rest true []
  | c :: rest, true, _ => sbAux rest false [c]
  | '\n' :: '\n' :: rest, false, acc => acc.reverse :: sbAux rest true []
  | c :: rest, false, acc => sbAux rest false (c :: acc)

/-- Python `re.split(r"\n{2,}", s)`. -/
def splitBlank (s : List Char) : List (List Char) := sbAux s false []

/-- Python `re.sub(r"[ \t]*\n[ \t]*", " ", s)` with its leftmost-greedy
match semantics: `pending` holds spaces/tabs not yet known to precede a
newline; `absorb` is true just after a replacement, while the trailing
`[ \t]*` of the match is being consumed. -/
def cnAux : List Char → List Char → Bool → List Char
  | [], pending, absorb => if absorb then [] else pending.reverse
  | c :: rest, pending, false =>
    if c = '\n' then ' ' :: cnAux rest [] true
    else if isSpTab c then cnAux rest (c :: pending) false
    else pending.reverse ++ c :: cnAux rest [] false
  | c :: rest, _, true =>
    if c = '\n' then ' ' :: cnAux rest [] true
    else if isSpTab c then cnAux rest [] true
    else c :: cnAux rest [] false

/-- Python `re.sub(r"[ \t]*\n[ \t]*", " ", s)`. -/
def collapseNl (s : List Char) : List Char := cnAux s [] false

/-- build.py lines 83-92 (`normalize_blocks`). -/
def normalize_blocks (raw : List Char) : List (List Char) :=
  (splitBlank (normEol raw)).filterMap (fun c =>
    let c := pyStrip c
    if c.isEmpty then none else some (collapseNl c))

/-! ## The page-marker compositor
(build_html_with_page_markers, build.py lines 112-150)

Python:
    def build_html_with_page_markers(pages_text, start_page_num,
                                     first_page_body_override=None):
        out = []
        if not pages_text:
            return ""
        first_body = (first_page_body_override
                      if first_page_body_override is not None
                      else pages_text[0])
        for b in normalize_blocks(first_body):
            out.append(f"<p>{esc(b)}</p>")
        pg = start_page_num
        for i in range(1, len(pages_text)):
            pg += 1
            blocks = normalize_blocks(pages_text[i])
            if not blocks:
                if out and out[-1].startswith("<p>"):
                    out[-1] = out[-1][:-4] \
                        + f'<sup class="pg" id="pg-{pg}">{pg}</sup></p>'
                continue
            first = blocks[0]
            looks_cont = bool(re.match(r"^[a-z0-9,.;:)]", first))
            if looks_cont and out and out[-1].startswith("<p"):
                last = out.pop()
                if 'class="' in last.split(">")[0]:
                    last = last.replace('class="', 'class="has-pg ', 1)
                else:
                    last = last.replace("<p", '<p class="has-pg"', 1)
                last = last[:-4] + f'<sup class="pg" id="pg-{pg}">{pg}</sup>' \
                                   f'<a class="pg-left" href="#pg-{pg}">{pg}</a> ' \
                                   f'{esc(first)}</p>'
                out.append(last)
                for b in blocks[1:]:
                    out.append(f"<p>{esc(b)}</p>")
            else:
                first_html = (f'<p class="has-pg">'
                              f'<sup class="pg" id="pg-{pg}">{pg}</sup>'
                              f'<a class="pg-left" href="#pg-{pg}">{pg}</a> '
                              f'{esc(first)}</p>')
                out.append(first_html)
                for b in blocks[1:]:
                    out.append(f"<p>{esc(b)}</p>")
        return "\n".join(out)

    def esc(t):
        return t.replace("&","&amp;").replace("<","&lt;").replace(">","&gt;")
-/

/-- build.py lines 149-150 (`esc`): the three sequential global replaces,
as an equivalent single pass over the original characters (the three
replacements introduce no character that a later replace would touch:
"&amp;" holds no angle bracket, and the inserted ampersands are not
rescanned by Python's earlier, already finished, replace). -/
def esc : List Char → List Char
  | [] => []
  | c :: r =>
    (if c = '&' then "&amp;".toList
     else if c = '<' then "&lt;".toList
     else if c = '>' then "&gt;".toList
     else [c]) ++ esc r

/-- Decimal digits of `n`, as Python's f-string renders a page number. -/
def natChars (n : Nat) : List Char := Nat.toDigits 10 n

/-- The page-marker element
`<sup class="pg" id="pg-N">N</sup>` (one marker, both branches). -/
def supLit (pg : Nat) : List Char :=
  "<sup class=\"pg\" id=\"pg-".toList ++ natChars pg ++ "\">".toList ++
    natChars pg ++ "</sup>".toList

/-- The margin link `<a class="pg-left" href="#pg-N">N</a> ` with its
trailing space, as in the two f-strings that emit it. -/
def aLit (pg : Nat) : List Char :=
  "<a class=\"pg-left\" href=\"#pg-".toList ++ natChars pg ++ "\">".toList ++
    natChars pg ++ "</a> ".toList

/-- The closing paragraph tag. -/
def eop : List Char := "</p>".toList

/-- A plain paragraph element `<p>{esc(b)}</p>`. -/
def plainP (b : List Char) : List Char := "<p>".toList ++ esc b ++ eop

/-- The standalone-break first paragraph of a page. -/
def firstHtml (pg : Nat) (f : List Char) : List Char :=
  "<p class=\"has-pg\">".toList ++ supLit pg ++ aLit pg ++ esc f ++ eop

/-- build.py line 128: `re.match(r"^[a-z0-9,.;:)]", first)` - the
continuation-looking test on a block's first character. -/
def looksContB : List Char → Bool
  | [] => false
  | c :: _ =>
    ('a' ≤ c && c ≤ 'z') || isAsciiDigit c ||
      c = ',' || c = '.' || c = ';' || c = ':' || c = ')'

/-- Python `s.startswith("<p")`. -/
def startsLtP (s : List Char) : Bool := "<p".toList.isPrefixOf s

/-- Python `s.startswith("<p>")`. -/
def startsLtPGt (s : List Char) : Bool := "<p>".toList.isPrefixOf s

/-- Python `s[:-4]` (drop the last four characters; everything the code
applies it to ends in the four-character `</p>`). -/
def dropLast4 (s : List Char) : List Char := (s.reverse.drop 4).reverse

/-- Python `s.replace(pat, rep, 1)`: replace the leftmost occurrence of
the (non-empty) pattern, if any. -/
def replaceFirst (pat rep : List Char) : List Char → List Char
  | [] => []
  | c :: rest =>
    if pat.isPrefixOf (c :: rest) then rep ++ (c :: rest).drop pat.length
    else c :: replaceFirst pat rep rest

/-- build.py line 131: `'class="' in last.split(">")[0]` - does the text
before the first `>` contain `class="`? -/
def headHasClass (s : List Char) : Bool :=
  containsSub ("class=\"".toList) (s.takeWhile (fun c => c ≠ '>'))

/-- build.py lines 131-134: promote the popped paragraph's head tag to
carry the `has-pg` class. -/
def classFix (s : List Char) : List Char :=
  if headHasClass s then
    replaceFirst ("class=\"".toList) ("class=\"has-pg ".toList) s
  else
    replaceFirst ("<p".toList) ("<p class=\"has-pg\"".toList) s

/-- One iteration of the page loop (build.py lines 120-146) for the page
numbered `pg`, acting on the accumulated list `out` of rendered
paragraph elements. -/
def buildStep (out : List (List Char)) (pg : Nat) (page : List Char) :
    List (List Char) :=
  match normalize_blocks page with
  | [] =>
    match out.getLast? with
    | some last =>
      if startsLtPGt last then
        out.dropLast ++ [dropLast4 last ++ supLit pg ++ eop]
      else out
    | none => out
  | f :: rest =>
    let cont :=
      looksContB f &&
        (match out.getLast? with
         | some last => startsLtP last
         | none => false)
    if cont then
      match out.getLast? with
      | some last =>
        out.dropLast ++
          [dropLast4 (classFix last) ++ supLit pg ++ aLit pg ++ esc f ++ eop] ++
          rest.map plainP
      | none => out
    else
      out ++ [firstHtml pg f] ++ rest.map plainP

/-- The page loop over pages 2..P; `pg` is the number of the previous
page, incremented before each step as in `pg += 1`. -/
def buildLoop (out : List (List Char)) (pg : Nat) :
    List (List Char) → List (List Char)
  | [] => out
  | p :: ps => buildLoop (buildStep out (pg + 1) p) (pg + 1) ps

/-- The effective page-text list: `first_page_body_override` replaces the
first page's text when present (write_case passes the header-stripped
body). -/
def effPages (pagesText : List (List Char)) (ov : Option (List Char)) :
    List (List Char) :=
  match pagesText, ov with
  | p0 :: rest, some o => o :: rest
  | ps, _ => ps

/-- build.py lines 112-147 (`build_html_with_page_markers`). -/
def build_html_with_page_markers (pagesText : List (List Char))
    (startPageNum : Nat) (ov : Option (List Char)) : List Char :=
  match effPages pagesText ov with
  | [] => []
  | p0 :: rest =>
    joinNl (buildLoop ((normalize_blocks p0).map plainP) startPageNum rest)

/-! ### Counting page markers

A page marker is the `<sup class="pg" ...>` element; both emitting
branches and the empty-page branch emit exactly one `<sup` per marker,
and escaped text can never contain `<`, so occurrences of the substring
`<sup` count markers. -/

/-- Occurrences of `pat` in `s` (number of positions where `pat` is a
prefix of the remaining suffix). -/
def countSub (pat : List Char) : List Char → Nat
  | [] => 0
  | c :: rest => (if pat.isPrefixOf (c :: rest) then 1 else 0) + countSub pat rest

/-- The marker pattern. -/
def sup4 : List Char := ['<', 's', 'u', 'p']

/-- The paragraph-close pattern. -/
def eopPat : List Char := ['<', '/', 'p', '>']

/-- The paragraph-open pattern. -/
def pOpenPat : List Char := ['<', 'p']

/-- A pattern starting with an angle bracket is no prefix of a string
starting with any other character. -/
theorem isPrefixOf_lt_false (pt : List Char) (c : Char) (t : List Char)
    (hc : c ≠ '<') : ('<' :: pt).isPrefixOf (c :: t) = false := by
  have h1 : ('<' == c) = false := beq_eq_false_iff_ne.mpr (fun he => hc he.symm)
  simp [List.isPrefixOf, h1]

/-- Prepending characters other than `<` does not add occurrences of a
pattern that starts with `<`. -/
theorem countSub_nolt_append (pt a b : List Char) (h : ∀ c ∈ a, c ≠ '<') :
    countSub ('<' :: pt) (a ++ b) = countSub ('<' :: pt) b := by
  induction a with
  | nil => rfl
  | cons c t ih =>
    have hc : c ≠ '<' := h c (List.mem_cons_self c t)
    have ht : ∀ x ∈ t, x ≠ '<' := fun x hx => h x (List.mem_cons_of_mem c hx)
    show (if ('<' :: pt).isPrefixOf (c :: (t ++ b)) then 1 else 0) +
      countSub ('<' :: pt) (t ++ b) = _
    rw [isPrefixOf_lt_false pt c _ hc, ih ht]
    simp

/-- A `<` followed by a character that does not continue the pattern
contributes no occurrence. -/
theorem countSub_lt_skip (d : Char) (pt : List Char) (c : Char) (t : List Char)
    (hne : (d == c) = false) :
    countSub ('<' :: d :: pt) ('<' :: c :: t) = countSub ('<' :: d :: pt) (c :: t) := by
  show (if ('<' :: d :: pt).isPrefixOf ('<' :: c :: t) then 1 else 0) + _ = _
  have h1 : ('<' :: d :: pt).isPrefixOf ('<' :: c :: t) = false := by
    simp [List.isPrefixOf, hne]
  rw [h1]
  simp

/-- Unfolding lemma for one scan position. -/
theorem countSub_cons (pat : List Char) (c : Char) (t : List Char) :
    countSub pat (c :: t) = (if pat.isPrefixOf (c :: t) then 1 else 0) + countSub pat t := rfl

/-- Every digit character is a decimal digit or the overflow star. -/
theorem digitChar_cases (m : Nat) (hm : m < 10) :
    (Nat.digitChar m).isDigit = true := by
  unfold Nat.digitChar
  by_cases h0 : m = 0
  · rw [if_pos h0]; decide
  rw [if_neg h0]
  by_cases h1 : m = 1
  · rw [if_pos h1]; decide
  rw [if_neg h1]
  by_cases h2 : m = 2
  · rw [if_pos h2]; decide
  rw [if_neg h2]
  by_cases h3 : m = 3
  · rw [if_pos h3]; decide
  rw [if_neg h3]
  by_cases h4 : m = 4
  · rw [if_pos h4]; decide
  rw [if_neg h4]
  by_cases h5 : m = 5
  · rw [if_pos h5]; decide
  rw [if_neg h5]
  by_cases h6 : m = 6
  · rw [if_pos h6]; decide
  rw [if_neg h6]
  by_cases h7 : m = 7
  · rw [if_pos h7]; decide
  rw [if_neg h7]
  by_cases h8 : m = 8
  · rw [if_pos h8]; decide
  rw [if_neg h8]
  by_cases h9 : m = 9
  · rw [if_pos h9]; decide
  rw [if_neg h9]
  omega

/-- Every character the base-10 digit renderer produces is a decimal
digit. -/
theorem toDigitsCore_mem :
    ∀ (fuel n : Nat) (ds : List Char), (∀ c ∈ ds, c.isDigit = true) →
    ∀ c ∈ Nat.toDigitsCore 10 fuel n ds, c.isDigit = true := by
  intro fuel
  induction fuel with
  | zero => intro n ds hds c hc; exact hds c hc
  | succ fuel ih =>
    intro n ds hds c hc
    have hd : ∀ x ∈ (Nat.digitChar (n % 10) :: ds), x.isDigit = true := by
      intro x hx
      rcases List.mem_cons.mp hx with he | hm
      · subst he
        exact digitChar_cases (n % 10) (Nat.mod_lt n (by omega))
      · exact hds x hm
    rw [Nat.toDigitsCore] at hc
    split at hc
    · exact hd c hc
    · exact ih _ _ hd c hc

/-- Page numbers render to digit characters. -/
theorem natChars_digit (n : Nat) : ∀ c ∈ natChars n, c.isDigit = true := by
  intro c hc
  exact toDigitsCore_mem (n + 1) n [] (by intro x hx; cases hx) c hc

/-- Digits are not `<`. -/
theorem natChars_ne_lt (n : Nat) : ∀ c ∈ natChars n, c ≠ '<' := by
  intro c hc he
  subst he
  have h := natChars_digit n '<' hc
  revert h
  decide

/-- Escaped text never contains `<`. -/
theorem esc_ne_lt (t : List Char) : ∀ c ∈ esc t, c ≠ '<' := by
  induction t with
  | nil => intro c hc; cases hc
  | cons x r ih =>
    intro c hc
    unfold esc at hc
    rcases List.mem_append.mp hc with h1 | h2
    · intro he
      subst he
      by_cases hx1 : x = '&'
      · rw [if_pos hx1] at h1; revert h1; decide
      · rw [if_neg hx1] at h1
        by_cases hx2 : x = '<'
        · rw [if_pos hx2] at h1; revert h1; decide
        · rw [if_neg hx2] at h1
          by_cases hx3 : x = '>'
          · rw [if_pos hx3] at h1; revert h1; decide
          · rw [if_neg hx3] at h1
            exact hx2 (List.mem_singleton.mp h1).symm
    · exact ih c h2

/-- Pattern-specific no-new-occurrence wrappers. -/
theorem cs_sup4_nolt (a b : List Char) (h : ∀ c ∈ a, c ≠ '<') :
    countSub sup4 (a ++ b) = countSub sup4 b :=
  countSub_nolt_append ['s', 'u', 'p'] a b h

/-- No-new-occurrence wrapper for the close-paragraph pattern. -/
theorem cs_eop_nolt (a b : List Char) (h : ∀ c ∈ a, c ≠ '<') :
    countSub eopPat (a ++ b) = countSub eopPat b :=
  countSub_nolt_append ['/', 'p', '>'] a b h

/-- No-new-occurrence wrapper for the open-paragraph pattern. -/
theorem cs_pOpen_nolt (a b : List Char) (h : ∀ c ∈ a, c ≠ '<') :
    countSub pOpenPat (a ++ b) = countSub pOpenPat b :=
  countSub_nolt_append ['p'] a b h

/-- Escaped text adds no marker occurrence. -/
theorem cs_sup4_esc (t b : List Char) :
    countSub sup4 (esc t ++ b) = countSub sup4 b :=
  cs_sup4_nolt (esc t) b (esc_ne_lt t)

/-- Escaped text adds no close-paragraph occurrence. -/
theorem cs_eop_esc (t b : List Char) :
    countSub eopPat (esc t ++ b) = countSub eopPat b :=
  cs_eop_nolt (esc t) b (esc_ne_lt t)

/-- Escaped text adds no open-paragraph occurrence. -/
theorem cs_pOpen_esc (t b : List Char) :
    countSub pOpenPat (esc t ++ b) = countSub pOpenPat b :=
  cs_pOpen_nolt (esc t) b (esc_ne_lt t)

/-- Digits add no marker occurrence. -/
theorem cs_sup4_nat (n : Nat) (b : List Char) :
    countSub sup4 (natChars n ++ b) = countSub sup4 b :=
  cs_sup4_nolt (natChars n) b (natChars_ne_lt n)

/-- Digits add no close-paragraph occurrence. -/
theorem cs_eop_nat (n : Nat) (b : List Char) :
    countSub eopPat (natChars n ++ b) = countSub eopPat b :=
  cs_eop_nolt (natChars n) b (natChars_ne_lt n)

/-- Digits add no open-paragraph occurrence. -/
theorem cs_pOpen_nat (n : Nat) (b : List Char) :
    countSub pOpenPat (natChars n ++ b) = countSub pOpenPat b :=
  cs_pOpen_nolt (natChars n) b (natChars_ne_lt n)

/-- A `sup` marker element contributes exactly one `<sup` occurrence. -/
theorem cs_sup4_supLit (pg : Nat) (b : List Char) :
    countSub sup4 (supLit pg ++ b) = 1 + countSub sup4 b := by
  have h1 : ∀ X, countSub sup4 ("<sup class=\"pg\" id=\"pg-".toList ++ X) =
      1 + countSub sup4 X := by
    intro X; simp [countSub, List.isPrefixOf, sup4]
  have h2 : ∀ X, countSub sup4 ("\">".toList ++ X) = countSub sup4 X := by
    intro X; simp [countSub, List.isPrefixOf, sup4]
  have h3 : ∀ X, countSub sup4 ("</sup>".toList ++ X) = countSub sup4 X := by
    intro X; simp [countSub, List.isPrefixOf, sup4]
  unfold supLit
  simp only [List.append_assoc]
  rw [h1, cs_sup4_nat, h2, cs_sup4_nat, h3]

/-- A `sup` marker element contributes no close-paragraph occurrence. -/
theorem cs_eop_supLit (pg : Nat) (b : List Char) :
    countSub eopPat (supLit pg ++ b) = countSub eopPat b := by
  have h1 : ∀ X, countSub eopPat ("<sup class=\"pg\" id=\"pg-".toList ++ X) =
      countSub eopPat X := by
    intro X; simp [countSub, List.isPrefixOf, eopPat]
  have h2 : ∀ X, countSub eopPat ("\">".toList ++ X) = countSub eopPat X := by
    intro X; simp [countSub, List.isPrefixOf, eopPat]
  have h3 : ∀ X, countSub eopPat ("</sup>".toList ++ X) = countSub eopPat X := by
    intro X; simp [countSub, List.isPrefixOf, eopPat]
  unfold supLit
  simp only [List.append_assoc]
  rw [h1, cs_eop_nat, h2, cs_eop_nat, h3]

/-- A `sup` marker element contributes no open-paragraph occurrence. -/
theorem cs_pOpen_supLit (pg : Nat) (b : List Char) :
    countSub pOpenPat (supLit pg ++ b) = countSub pOpenPat b := by
  have h1 : ∀ X, countSub pOpenPat ("<sup class=\"pg\" id=\"pg-".toList ++ X) =
      countSub pOpenPat X := by
    intro X; simp [countSub, List.isPrefixOf, pOpenPat]
  have h2 : ∀ X, countSub pOpenPat ("\">".toList ++ X) = countSub pOpenPat X := by
    intro X; simp [countSub, List.isPrefixOf, pOpenPat]
  have h3 : ∀ X, countSub pOpenPat ("</sup>".toList ++ X) = countSub pOpenPat X := by
    intro X; simp [countSub, List.isPrefixOf, pOpenPat]
  unfold supLit
  simp only [List.append_assoc]
  rw [h1, cs_pOpen_nat, h2, cs_pOpen_nat, h3]

/-- A margin link contributes no marker occurrence. -/
theorem cs_sup4_aLit (pg : Nat) (b : List Char) :
    countSub sup4 (aLit pg ++ b) = countSub sup4 b := by
  have h1 : ∀ X, countSub sup4 ("<a class=\"pg-left\" href=\"#pg-".toList ++ X) =
      countSub sup4 X := by
    intro X; simp [countSub, List.isPrefixOf, sup4]
  have h2 : ∀ X, countSub sup4 ("\">".toList ++ X) = countSub sup4 X := by
    intro X; simp [countSub, List.isPrefixOf, sup4]
  have h3 : ∀ X, countSub sup4 ("</a> ".toList ++ X) = countSub sup4 X := by
    intro X; simp [countSub, List.isPrefixOf, sup4]
  unfold aLit
  simp only [List.append_assoc]
  rw [h1, cs_sup4_nat, h2, cs_sup4_nat, h3]

/-- A margin link contributes no close-paragraph occurrence. -/
theorem cs_eop_aLit (pg : Nat) (b : List Char) :
    countSub eopPat (aLit pg ++ b) = countSub eopPat b := by
  have h1 : ∀ X, countSub eopPat ("<a class=\"pg-left\" href=\"#pg-".toList ++ X) =
      countSub eopPat X := by
    intro X; simp [countSub, List.isPrefixOf, eopPat]
  have h2 : ∀ X, countSub eopPat ("\">".toList ++ X) = countSub eopPat X := by
    intro X; simp [countSub, List.isPrefixOf, eopPat]
  have h3 : ∀ X, countSub eopPat ("</a> ".toList ++ X) = countSub eopPat X := by
    intro X; simp [countSub, List.isPrefixOf, eopPat]
  unfold aLit
  simp only [List.append_assoc]
  rw [h1, cs_eop_nat, h2, cs_eop_nat, h3]

/-- A margin link contributes no open-paragraph occurrence. -/
theorem cs_pOpen_aLit (pg : Nat) (b : List Char) :
    countSub pOpenPat (aLit pg ++ b) = countSub pOpenPat b := by
  have h1 : ∀ X, countSub pOpenPat ("<a class=\"pg-left\" href=\"#pg-".toList ++ X) =
      countSub pOpenPat X := by
    intro X; simp [countSub, List.isPrefixOf, pOpenPat]
  have h2 : ∀ X, countSub pOpenPat ("\">".toList ++ X) = countSub pOpenPat X := by
    intro X; simp [countSub, List.isPrefixOf, pOpenPat]
  have h3 : ∀ X, countSub pOpenPat ("</a> ".toList ++ X) = countSub pOpenPat X := by
    intro X; simp [countSub, List.isPrefixOf, pOpenPat]
  unfold aLit
  simp only [List.append_assoc]
  rw [h1, cs_pOpen_nat, h2, cs_pOpen_nat, h3]

/-- The close tag contributes no marker occurrence. -/
theorem cs_sup4_eop (b : List Char) :
    countSub sup4 (eop ++ b) = countSub sup4 b := by
  show countSub sup4 ("</p>".toList ++ b) = countSub sup4 b
  simp [countSub, List.isPrefixOf, sup4]

/-! ### The shape of the elements of `out`

Every element the compositor stores is a head tag (a plain `<p>` or a
`<p class="has-pg ...">` whose class value grew by repeated `has-pg`
insertions), a body that concatenates escaped-text pieces, markers and
margin links, and the closing `</p>`. -/

/-- The classful head tag with class word list `w`. -/
def hasPgHead (w : List Char) : List Char :=
  "<p class=\"has-pg".toList ++ w ++ "\">".toList

/-- Characters that can appear inside the accumulated class value. -/
def clsChar (c : Char) : Prop :=
  c = 'h' ∨ c = 'a' ∨ c = 's' ∨ c = '-' ∨ c = 'p' ∨ c = 'g' ∨ c = ' '

/-- The two head-tag shapes. -/
inductive HeadOK : List Char → Prop
  | plain : HeadOK ("<p>".toList)
  | cls (w : List Char) (hw : ∀ c ∈ w, clsChar c) : HeadOK (hasPgHead w)

/-- Class characters are ordinary text characters. -/
theorem clsChar_ne (c : Char) (h : clsChar c) : c ≠ '<' ∧ c ≠ '>' ∧ c ≠ '"' := by
  rcases h with h | h | h | h | h | h | h <;> (subst h; refine ⟨by decide, by decide, by decide⟩)

/-- The pieces a body concatenates. -/
inductive PieceOK : List Char → Prop
  | txt (t : List Char) : PieceOK (esc t)
  | sup (pg : Nat) : PieceOK (supLit pg)
  | alink (pg : Nat) : PieceOK (aLit pg)

/-- An element of `out`: head, body pieces, close tag. -/
def ElemOK (e : List Char) : Prop :=
  ∃ (hd : List Char) (ps : List (List Char)),
    HeadOK hd ∧ (∀ p ∈ ps, PieceOK p) ∧ e = hd ++ (ps.flatten ++ eop)

/-- Heads contribute no marker occurrence. -/
theorem cs_sup4_head (hd b : List Char) (h : HeadOK hd) :
    countSub sup4 (hd ++ b) = countSub sup4 b := by
  cases h with
  | plain =>
    show countSub sup4 ("<p>".toList ++ b) = countSub sup4 b
    simp [countSub, List.isPrefixOf, sup4]
  | cls w hw =>
    have h1 : ∀ X, countSub sup4 ("<p class=\"has-pg".toList ++ X) = countSub sup4 X := by
      intro X; simp [countSub, List.isPrefixOf, sup4]
    have h2 : ∀ X, countSub sup4 ("\">".toList ++ X) = countSub sup4 X := by
      intro X; simp [countSub, List.isPrefixOf, sup4]
    unfold hasPgHead
    simp only [List.append_assoc]
    rw [h1, cs_sup4_nolt w _ (fun c hc => (clsChar_ne c (hw c hc)).1), h2]

/-- The body pieces of an element contribute a fixed number of marker
occurrences, independent of what follows. -/
theorem pieces_count (ps : List (List Char)) (hps : ∀ p ∈ ps, PieceOK p) :
    ∃ k, ∀ b, countSub sup4 (ps.flatten ++ b) = k + countSub sup4 b := by
  induction ps with
  | nil => exact ⟨0, fun b => by simp⟩
  | cons p t ih =>
    obtain ⟨k, hk⟩ := ih (fun x hx => hps x (List.mem_cons_of_mem p hx))
    have hp := hps p (List.mem_cons_self p t)
    cases hp with
    | txt t2 =>
      refine ⟨k, fun b => ?_⟩
      rw [List.flatten_cons, List.append_assoc, cs_sup4_esc, hk]
    | sup pg =>
      refine ⟨1 + k, fun b => ?_⟩
      rw [List.flatten_cons, List.append_assoc, cs_sup4_supLit, hk]
      omega
    | alink pg =>
      refine ⟨k, fun b => ?_⟩
      rw [List.flatten_cons, List.append_assoc, cs_sup4_aLit, hk]

/-- The marker count of a well-shaped element is the count of its body
followed by anything. -/
theorem elem_count (hd fl : List Char) (hhd : HeadOK hd) :
    countSub sup4 (hd ++ (fl ++ eop)) = countSub sup4 (fl ++ eop) :=
  cs_sup4_head hd _ hhd

/-- Taking while a predicate holds walks through a prefix on which it
holds everywhere. -/
theorem takeWhile_append_all (p : Char → Bool) (x y : List Char)
    (h : ∀ c ∈ x, p c = true) :
    (x ++ y).takeWhile p = x ++ y.takeWhile p := by
  induction x with
  | nil => rfl
  | cons c t ih =>
    have hc : p c = true := h c (List.mem_cons_self c t)
    rw [List.cons_append, List.takeWhile_cons, hc]
    rw [ih (fun x hx => h x (List.mem_cons_of_mem c hx))]
    rfl

/-- A substring of the right part is a substring of the whole. -/
theorem containsSub_append_right (pat a b : List Char)
    (h : containsSub pat b = true) : containsSub pat (a ++ b) = true := by
  induction a with
  | nil => exact h
  | cons c t ih =>
    show (pat.isPrefixOf (c :: (t ++ b)) || containsSub pat (t ++ b)) = true
    rw [ih]
    exact Bool.or_true _

/-- A string starting with the pattern contains it. -/
theorem containsSub_self_append (pat x : List Char) :
    containsSub pat (pat ++ x) = true := by
  cases pat with
  | nil =>
    cases x with
    | nil => rfl
    | cons c r => simp [containsSub, List.isPrefixOf]
  | cons q qt =>
    show ((q :: qt).isPrefixOf ((q :: qt) ++ x) || _) = true
    rw [List.isPrefixOf_iff_prefix.mpr (List.prefix_append _ x)]
    rfl

/-- The head test of the classless branch: a plain paragraph's first tag
carries no class. -/
theorem headHasClass_plain (X : List Char) :
    headHasClass ("<p>".toList ++ X) = false := by
  show headHasClass ('<' :: 'p' :: '>' :: X) = false
  simp [headHasClass, containsSub, List.takeWhile_cons, List.isPrefixOf]

/-- The head test of the classful branch: the accumulated class is found
before the first `>`. -/
theorem headHasClass_cls (w X : List Char) (hw : ∀ c ∈ w, clsChar c) :
    headHasClass (hasPgHead w ++ X) = true := by
  unfold headHasClass hasPgHead
  simp only [List.append_assoc]
  rw [takeWhile_append_all _ _ _ (by decide)]
  rw [takeWhile_append_all (fun c => decide (c ≠ '>')) w _
    (fun c hc => decide_eq_true (fun he => ((clsChar_ne c (hw c hc)).2.1) he))]
  have hX : ("\">".toList ++ X).takeWhile (fun c => c ≠ '>') = ['\"'] := by
    show ('\"' :: '>' :: X).takeWhile (fun c => c ≠ '>') = ['\"']
    simp [List.takeWhile_cons]
  rw [hX]
  show containsSub ("class=\"".toList)
    ("<p ".toList ++ ("class=\"".toList ++ ("has-pg".toList ++ (w ++ ['\"'])))) = true
  exact containsSub_append_right _ _ _ (containsSub_self_append _ _)

/-- Promotion of a plain head: the classless branch of lines 133-134. -/
theorem classFix_plain (fl : List Char) :
    classFix ("<p>".toList ++ (fl ++ eop)) = hasPgHead [] ++ (fl ++ eop) := by
  unfold classFix
  rw [headHasClass_plain]
  simp only [Bool.false_eq_true, if_false]
  show replaceFirst ("<p".toList) ("<p class=\"has-pg\"".toList)
    ('<' :: 'p' :: '>' :: (fl ++ eop)) = hasPgHead [] ++ (fl ++ eop)
  have hpre : ("<p".toList).isPrefixOf ('<' :: 'p' :: '>' :: (fl ++ eop)) = true := by
    simp [List.isPrefixOf]
  simp only [replaceFirst, hpre, if_true]
  simp [hasPgHead]

/-- One scan step of the single replace when the pattern does not match
here. -/
theorem replaceFirst_skip (pat rep : List Char) (c : Char) (t : List Char)
    (h : pat.isPrefixOf (c :: t) = false) :
    replaceFirst pat rep (c :: t) = c :: replaceFirst pat rep t := by
  simp [replaceFirst, h]

/-- The single replace fires where the pattern starts. -/
theorem replaceFirst_here (pat rep t : List Char) (hne : pat ≠ []) :
    replaceFirst pat rep (pat ++ t) = rep ++ t := by
  cases pat with
  | nil => exact absurd rfl hne
  | cons q qt =>
    have hpre : (q :: qt).isPrefixOf (q :: (qt ++ t)) = true :=
      List.isPrefixOf_iff_prefix.mpr (List.prefix_append _ _)
    show replaceFirst (q :: qt) rep (q :: (qt ++ t)) = rep ++ t
    simp only [replaceFirst, hpre, if_true, List.length_cons, List.drop_succ_cons,
      List.drop_left]

/-- Promotion of a classful head: the class-insert branch of line 132. -/
theorem classFix_cls (w fl : List Char) (hw : ∀ c ∈ w, clsChar c) :
    classFix (hasPgHead w ++ (fl ++ eop)) =
      hasPgHead (" has-pg".toList ++ w) ++ (fl ++ eop) := by
  unfold classFix
  rw [headHasClass_cls w _ hw]
  simp only [if_true]
  have h0 : ∀ (c : Char) (t : List Char), c ≠ 'c' →
      ("class=\"".toList).isPrefixOf (c :: t) = false := by
    intro c t hc
    have h1 : ('c' == c) = false := beq_eq_false_iff_ne.mpr (fun he => hc he.symm)
    simp [List.isPrefixOf, h1]
  have hassoc : hasPgHead w ++ (fl ++ eop) =
      '<' :: 'p' :: ' ' :: ("class=\"".toList ++
        ('h' :: 'a' :: 's' :: '-' :: 'p' :: 'g' :: (w ++ ('\"' :: '>' :: (fl ++ eop))))) := by
    simp [hasPgHead]
  rw [hassoc]
  rw [replaceFirst_skip _ _ '<' _ (h0 '<' _ (by decide))]
  rw [replaceFirst_skip _ _ 'p' _ (h0 'p' _ (by decide))]
  rw [replaceFirst_skip _ _ ' ' _ (h0 ' ' _ (by decide))]
  rw [replaceFirst_here _ _ _ (by decide)]
  simp [hasPgHead]

/-- Both head shapes, promoted, are still head shapes. -/
theorem classFix_elem (hd fl : List Char) (hhd : HeadOK hd) :
    ∃ hd2, HeadOK hd2 ∧ classFix (hd ++ (fl ++ eop)) = hd2 ++ (fl ++ eop) := by
  cases hhd with
  | plain =>
    exact ⟨hasPgHead [], HeadOK.cls [] (by intro c hc; cases hc), classFix_plain fl⟩
  | cls w hw =>
    refine ⟨hasPgHead (" has-pg".toList ++ w), HeadOK.cls _ ?_, classFix_cls w fl hw⟩
    intro c hc
    rcases List.mem_append.mp hc with h | h
    · have h2 : c ∈ [' ', 'h', 'a', 's', '-', 'p', 'g'] := h
      simp only [List.mem_cons] at h2
      rcases h2 with h2 | h2 | h2 | h2 | h2 | h2 | h2 | h2 <;> first
        | (subst h2; unfold clsChar; decide)
        | (cases h2)
    · exact hw c h

/-- Dropping the last four characters of a `</p>`-terminated string. -/
theorem dropLast4_concat_eop (x : List Char) : dropLast4 (x ++ eop) = x := by
  unfold dropLast4 eop
  rw [List.reverse_append]
  simp

/-- Every well-shaped element starts with `<p`. -/
theorem startsLtP_head (hd X : List Char) (h : HeadOK hd) :
    startsLtP (hd ++ X) = true := by
  cases h with
  | plain =>
    show startsLtP ('<' :: 'p' :: '>' :: X) = true
    simp [startsLtP, List.isPrefixOf]
  | cls w hw =>
    show startsLtP ('<' :: 'p' :: ' ' :: ("class=\"has-pg".toList ++
      (w ++ ('\"' :: '>' :: X)))) = true
    simp [startsLtP, List.isPrefixOf]

/-- Plain heads pass the `startswith("<p>")` test. -/
theorem startsLtPGt_plain (X : List Char) :
    startsLtPGt ("<p>".toList ++ X) = true := by
  show startsLtPGt ('<' :: 'p' :: '>' :: X) = true
  simp [startsLtPGt, List.isPrefixOf]

/-- Classful heads fail the `startswith("<p>")` test (the cause of claim
C1's failure on empty pages). -/
theorem startsLtPGt_cls (w X : List Char) :
    startsLtPGt (hasPgHead w ++ X) = false := by
  show startsLtPGt ('<' :: 'p' :: ' ' :: ("class=\"has-pg".toList ++
    (w ++ ('\"' :: '>' :: X)))) = false
  simp [startsLtPGt, List.isPrefixOf]

/-- Marker count of the closing tag alone. -/
theorem cs_sup4_eop_nil : countSub sup4 eop = 0 := by decide

/-- A plain paragraph element holds no marker. -/
theorem cs_sup4_plainP (b : List Char) : countSub sup4 (plainP b) = 0 := by
  unfold plainP
  rw [show "<p>".toList ++ esc b ++ eop = "<p>".toList ++ (esc b ++ eop) from by
    simp [List.append_assoc]]
  rw [cs_sup4_head _ _ HeadOK.plain, cs_sup4_esc]
  exact cs_sup4_eop_nil

/-- The literal head of the standalone branch is the classful head with
an empty class word. -/
theorem firstHtml_head : "<p class=\"has-pg\">".toList = hasPgHead [] := by decide

/-- A standalone first paragraph holds exactly one marker. -/
theorem cs_sup4_firstHtml (pg : Nat) (f : List Char) :
    countSub sup4 (firstHtml pg f) = 1 := by
  unfold firstHtml
  rw [firstHtml_head]
  rw [show hasPgHead [] ++ supLit pg ++ aLit pg ++ esc f ++ eop =
    hasPgHead [] ++ (supLit pg ++ (aLit pg ++ (esc f ++ eop))) from by
      simp [List.append_assoc]]
  rw [cs_sup4_head _ _ (HeadOK.cls [] (by intro c hc; cases hc)),
    cs_sup4_supLit, cs_sup4_aLit, cs_sup4_esc, cs_sup4_eop_nil]

/-- A plain paragraph element is well shaped. -/
theorem elemOK_plainP (b : List Char) : ElemOK (plainP b) := by
  refine ⟨"<p>".toList, [esc b], HeadOK.plain, ?_, ?_⟩
  · intro p hp
    rcases List.mem_singleton.mp hp with rfl
    exact PieceOK.txt b
  · simp [plainP]

/-- A standalone first paragraph is well shaped. -/
theorem elemOK_firstHtml (pg : Nat) (f : List Char) : ElemOK (firstHtml pg f) := by
  refine ⟨hasPgHead [], [supLit pg, aLit pg, esc f],
    HeadOK.cls [] (by intro c hc; cases hc), ?_, ?_⟩
  · intro p hp
    simp only [List.mem_cons] at hp
    rcases hp with rfl | rfl | rfl | h
    · exact PieceOK.sup pg
    · exact PieceOK.alink pg
    · exact PieceOK.txt f
    · cases h
  · unfold firstHtml
    rw [firstHtml_head]
    simp [List.append_assoc]

/-- Sum of the marker counts of a list of elements. -/
def outCnt (out : List (List Char)) : Nat := (out.map (countSub sup4)).sum

/-- The element list is well shaped. -/
def OutOK (out : List (List Char)) : Prop := ∀ e ∈ out, ElemOK e

/-- Count over the mapped plain paragraphs of a page's remaining
blocks. -/
theorem outCnt_plainPs (bs : List (List Char)) : outCnt (bs.map plainP) = 0 := by
  induction bs with
  | nil => rfl
  | cons b t ih =>
    unfold outCnt at ih ⊢
    simp only [List.map_cons, List.map_map, List.sum_cons] at ih ⊢
    rw [cs_sup4_plainP]
    simpa using ih

/-- Count is additive over concatenation of element lists. -/
theorem outCnt_append (a b : List (List Char)) :
    outCnt (a ++ b) = outCnt a + outCnt b := by
  unfold outCnt
  rw [List.map_append, List.sum_append]

/-- Branch shape: a page with no blocks. -/
theorem buildStep_blocks_nil (out : List (List Char)) (pg : Nat) (page : List Char)
    (hb : normalize_blocks page = []) :
    buildStep out pg page =
      (match out.getLast? with
       | some last =>
         if startsLtPGt last then out.dropLast ++ [dropLast4 last ++ supLit pg ++ eop]
         else out
       | none => out) := by
  unfold buildStep
  rw [hb]

/-- Branch shape: the standalone-break branch (no continuation splice,
because the first block does not look like a continuation or there is no
previous paragraph). -/
theorem buildStep_standalone (out : List (List Char)) (pg : Nat) (page : List Char)
    (f : List Char) (rest : List (List Char))
    (hb : normalize_blocks page = f :: rest)
    (hcond : looksContB f = false ∨ out = []) :
    buildStep out pg page = out ++ [firstHtml pg f] ++ rest.map plainP := by
  unfold buildStep
  rw [hb]
  rcases hcond with hc | hc
  · simp [hc]
  · subst hc
    simp

/-- Branch shape: the continuation-splice branch. -/
theorem buildStep_cont (out : List (List Char)) (pg : Nat) (page : List Char)
    (f : List Char) (rest : List (List Char)) (init : List (List Char)) (last : List Char)
    (hb : normalize_blocks page = f :: rest)
    (hcont : looksContB f = true)
    (hout : out = init ++ [last])
    (hstart : startsLtP last = true) :
    buildStep out pg page =
      init ++ [dropLast4 (classFix last) ++ supLit pg ++ aLit pg ++ esc f ++ eop] ++
        rest.map plainP := by
  unfold buildStep
  rw [hb]
  subst hout
  rw [List.getLast?_concat]
  simp [hcont, hstart, List.dropLast_concat]

/-- The spliced element of the continuation branch, in element shape:
the promoted head followed by the old body pieces extended with the
marker, the margin link and the escaped first block. -/
theorem spliced_decomp (hd : List Char) (ps : List (List Char)) (pg : Nat) (f : List Char)
    (hhd : HeadOK hd) :
    ∃ hd2, HeadOK hd2 ∧
      dropLast4 (classFix (hd ++ (ps.flatten ++ eop))) ++ supLit pg ++ aLit pg ++
          esc f ++ eop =
        hd2 ++ ((ps ++ [supLit pg, aLit pg, esc f]).flatten ++ eop) := by
  obtain ⟨hd2, hh2, heq⟩ := classFix_elem hd ps.flatten hhd
  refine ⟨hd2, hh2, ?_⟩
  rw [heq]
  rw [show hd2 ++ (ps.flatten ++ eop) = (hd2 ++ ps.flatten) ++ eop from by
    simp [List.append_assoc]]
  rw [dropLast4_concat_eop]
  simp [List.append_assoc]

/-- The extended piece list of the continuation branch is made of
pieces. -/
theorem pieces_append_three (ps : List (List Char)) (pg : Nat) (f : List Char)
    (hps : ∀ p ∈ ps, PieceOK p) :
    ∀ p ∈ ps ++ [supLit pg, aLit pg, esc f], PieceOK p := by
  intro p hp
  rcases List.mem_append.mp hp with h | h
  · exact hps p h
  · simp only [List.mem_cons] at h
    rcases h with rfl | rfl | rfl | h
    · exact PieceOK.sup pg
    · exact PieceOK.alink pg
    · exact PieceOK.txt f
    · cases h

/-- Marker counts of an element and of its continuation-spliced
extension. -/
theorem elem_splice_count (hd hd2 : List Char) (ps : List (List Char))
    (pg : Nat) (f : List Char) (hhd : HeadOK hd) (hhd2 : HeadOK hd2)
    (hps : ∀ p ∈ ps, PieceOK p) :
    countSub sup4 (hd2 ++ ((ps ++ [supLit pg, aLit pg, esc f]).flatten ++ eop)) =
      countSub sup4 (hd ++ (ps.flatten ++ eop)) + 1 := by
  obtain ⟨k, hk⟩ := pieces_count ps hps
  rw [cs_sup4_head _ _ hhd, cs_sup4_head _ _ hhd2]
  rw [hk eop, cs_sup4_eop_nil]
  rw [show (ps ++ [supLit pg, aLit pg, esc f]).flatten ++ eop =
    ps.flatten ++ (supLit pg ++ (aLit pg ++ (esc f ++ eop))) from by
      simp [List.append_assoc]]
  rw [hk, cs_sup4_supLit, cs_sup4_aLit, cs_sup4_esc, cs_sup4_eop_nil]

/-- Marker count and element shape of the empty-page edit. -/
theorem elem_emptyedit (hd : List Char) (ps : List (List Char)) (pg : Nat)
    (hhd : HeadOK hd) :
    dropLast4 (hd ++ (ps.flatten ++ eop)) ++ supLit pg ++ eop =
      hd ++ ((ps ++ [supLit pg]).flatten ++ eop) := by
  rw [show hd ++ (ps.flatten ++ eop) = (hd ++ ps.flatten) ++ eop from by
    simp [List.append_assoc]]
  rw [dropLast4_concat_eop]
  simp [List.append_assoc]

/-- Count of a single element. -/
theorem outCnt_singleton (e : List Char) : outCnt [e] = countSub sup4 e := by
  simp [outCnt]

/-- Mapped plain paragraphs are well shaped. -/
theorem outOK_plainPs (bs : List (List Char)) : OutOK (bs.map plainP) := by
  intro e he
  obtain ⟨b, _, rfl⟩ := List.mem_map.mp he
  exact elemOK_plainP b

/-- Well-shapedness combines over concatenation. -/
theorem outOK_append (a b : List (List Char)) (ha : OutOK a) (hb : OutOK b) :
    OutOK (a ++ b) := by
  intro e he
  rcases List.mem_append.mp he with h | h
  · exact ha e h
  · exact hb e h

/-- The standalone branch adds exactly one marker and keeps every
element well shaped. -/
theorem standalone_count (out : List (List Char)) (pg : Nat) (f : List Char)
    (rest : List (List Char)) (hout : OutOK out) :
    outCnt (out ++ [firstHtml pg f] ++ rest.map plainP) = outCnt out + 1 ∧
    OutOK (out ++ [firstHtml pg f] ++ rest.map plainP) := by
  constructor
  · rw [outCnt_append, outCnt_append, outCnt_singleton, outCnt_plainPs,
      cs_sup4_firstHtml]
  · exact outOK_append _ _ (outOK_append _ _ hout
      (by intro e he; rcases List.mem_singleton.mp he with rfl; exact elemOK_firstHtml pg f))
      (outOK_plainPs rest)

/-- One loop iteration on a page with at least one block adds exactly
one marker, and keeps every element well shaped. -/
theorem buildStep_count (out : List (List Char)) (pg : Nat) (page : List Char)
    (hout : OutOK out) (hne : normalize_blocks page ≠ []) :
    outCnt (buildStep out pg page) = outCnt out + 1 ∧ OutOK (buildStep out pg page) := by
  cases hb : normalize_blocks page with
  | nil => exact absurd hb hne
  | cons f rest =>
    by_cases hcl : looksContB f = true
    · by_cases ho : out = []
      · rw [buildStep_standalone out pg page f rest hb (Or.inr ho)]
        exact standalone_count out pg f rest hout
      · have hlast := List.dropLast_append_getLast ho
        obtain ⟨hd, ps, hhd, hps, hdec⟩ := hout (out.getLast ho) (List.getLast_mem ho)
        have hstart : startsLtP (out.getLast ho) = true := by
          rw [hdec]; exact startsLtP_head hd _ hhd
        rw [buildStep_cont out pg page f rest out.dropLast (out.getLast ho)
          hb hcl hlast.symm hstart]
        rw [hdec]
        obtain ⟨hd2, hhd2, hsp⟩ := spliced_decomp hd ps pg f hhd
        rw [hsp]
        constructor
        · rw [outCnt_append, outCnt_append, outCnt_singleton, outCnt_plainPs,
            elem_splice_count hd hd2 ps pg f hhd hhd2 hps]
          conv_rhs => rw [← hlast]
          rw [outCnt_append, outCnt_singleton, hdec]
          omega
        · refine outOK_append _ _ (outOK_append _ _ ?_ ?_) (outOK_plainPs rest)
          · intro e he
            exact hout e (List.mem_of_mem_dropLast he)
          · intro e he
            rcases List.mem_singleton.mp he with rfl
            exact ⟨hd2, ps ++ [supLit pg, aLit pg, esc f], hhd2,
              pieces_append_three ps pg f hps, rfl⟩
    · rw [buildStep_standalone out pg page f rest hb
        (Or.inl (by revert hcl; cases looksContB f <;> simp))]
      exact standalone_count out pg f rest hout

/-- Every loop iteration (any branch) keeps every element well
shaped. -/
theorem buildStep_elemOK (out : List (List Char)) (pg : Nat) (page : List Char)
    (hout : OutOK out) : OutOK (buildStep out pg page) := by
  cases hb : normalize_blocks page with
  | nil =>
    rw [buildStep_blocks_nil out pg page hb]
    cases hg : out.getLast? with
    | none => exact hout
    | some last =>
      by_cases hs : startsLtPGt last = true
      · simp only [hs, if_true]
        have hmem : last ∈ out := List.mem_of_mem_getLast? hg
        obtain ⟨hd, ps, hhd, hps, hdec⟩ := hout last hmem
        rw [hdec, elem_emptyedit hd ps pg hhd]
        refine outOK_append _ _ ?_ ?_
        · intro e he
          exact hout e (List.mem_of_mem_dropLast he)
        · intro e he
          rcases List.mem_singleton.mp he with rfl
          refine ⟨hd, ps ++ [supLit pg], hhd, ?_, rfl⟩
          intro p hp
          rcases List.mem_append.mp hp with h | h
          · exact hps p h
          · rcases List.mem_singleton.mp h with rfl
            exact PieceOK.sup pg
      · simp only [hs]
        simpa using hout
  | cons f rest => exact (buildStep_count out pg page hout (by rw [hb]; simp)).2

/-- The page loop over block-bearing pages adds one marker per page. -/
theorem buildLoop_count (ps : List (List Char)) : ∀ (out : List (List Char)) (pg : Nat),
    OutOK out → (∀ p ∈ ps, normalize_blocks p ≠ []) →
    outCnt (buildLoop out pg ps) = outCnt out + ps.length ∧ OutOK (buildLoop out pg ps) := by
  induction ps with
  | nil => intro out pg h _; exact ⟨by simp [buildLoop], h⟩
  | cons p t ih =>
    intro out pg hout hps
    obtain ⟨h1, h2⟩ := buildStep_count out (pg + 1) p hout (hps p (List.mem_cons_self p t))
    obtain ⟨h3, h4⟩ := ih (buildStep out (pg + 1) p) (pg + 1) h2
      (fun x hx => hps x (List.mem_cons_of_mem p hx))
    refine ⟨?_, h4⟩
    show outCnt (buildLoop (buildStep out (pg + 1) p) (pg + 1) t) = _
    rw [h3, h1, List.length_cons]
    omega

/-- A pattern without a newline is a prefix of `a ++ \n :: b` exactly
when it is a prefix of `a`. -/
theorem isPrefixOf_append_nl : ∀ (pat : List Char), '\n' ∉ pat →
    ∀ a b : List Char, pat.isPrefixOf (a ++ '\n' :: b) = pat.isPrefixOf a := by
  intro pat
  induction pat with
  | nil => intro _ a b; simp [List.isPrefixOf]
  | cons p pt ih =>
    intro hnl a b
    cases a with
    | nil =>
      have hp : (p == '\n') = false :=
        beq_eq_false_iff_ne.mpr (fun he => hnl (he ▸ List.mem_cons_self p pt))
      show ((p == '\n') && pt.isPrefixOf b) = (p :: pt).isPrefixOf []
      rw [hp]
      rfl
    | cons c t =>
      show ((p == c) && pt.isPrefixOf (t ++ '\n' :: b)) = ((p == c) && pt.isPrefixOf t)
      rw [ih (fun h => hnl (List.mem_cons_of_mem p h)) t b]

/-- Counting splits at a newline separator for patterns without a
newline. -/
theorem countSub_append_nl (pat : List Char) (hnl : '\n' ∉ pat) (hne : pat ≠ []) :
    ∀ a b : List Char, countSub pat (a ++ '\n' :: b) = countSub pat a + countSub pat b := by
  intro a
  induction a with
  | nil =>
    intro b
    cases pat with
    | nil => exact absurd rfl hne
    | cons p pt =>
      have hp : (p == '\n') = false :=
        beq_eq_false_iff_ne.mpr (fun he => hnl (he ▸ List.mem_cons_self p pt))
      show (if (p :: pt).isPrefixOf ('\n' :: b) then 1 else 0) + countSub (p :: pt) b =
        countSub (p :: pt) [] + countSub (p :: pt) b
      have h2 : (p :: pt).isPrefixOf ('\n' :: b) = false := by
        show ((p == '\n') && pt.isPrefixOf b) = false
        rw [hp]
        rfl
      rw [h2]
      rfl
  | cons c t ih =>
    intro b
    show (if pat.isPrefixOf ((c :: t) ++ '\n' :: b) then 1 else 0) +
        countSub pat (t ++ '\n' :: b) =
      ((if pat.isPrefixOf (c :: t) then 1 else 0) + countSub pat t) + countSub pat b
    rw [isPrefixOf_append_nl pat hnl (c :: t) b, ih b]
    omega

/-- Counting over the newline join is the sum over the elements, for
patterns without a newline. -/
theorem countSub_joinNl (pat : List Char) (hnl : '\n' ∉ pat) (hne : pat ≠ []) :
    ∀ out : List (List Char), countSub pat (joinNl out) = (out.map (countSub pat)).sum := by
  intro out
  induction out with
  | nil => rfl
  | cons e es ih =>
    cases es with
    | nil => simp [joinNl]
    | cons e2 es2 =>
      show countSub pat (e ++ '\n' :: joinNl (e2 :: es2)) = _
      rw [countSub_append_nl pat hnl hne, ih]
      simp

/-- The override only replaces the first page. -/
theorem effPages_length (ps : List (List Char)) (ov : Option (List Char)) :
    (effPages ps ov).length = ps.length := by
  cases ps <;> cases ov <;> rfl

/-- C1 counterexample: the three-page document ["A", "b", ""] (page 2
splices as a continuation, page 3 is empty).  The empty page's marker is
dropped, because the spliced previous paragraph starts `<p class=` and
fails the `startswith("<p>")` test of line 124, so the body holds 1
marker instead of P - 1 = 2. -/
theorem page_marker_count_counterexample :
    countSub sup4 (build_html_with_page_markers
      ["A".toList, "b".toList, "".toList] 1 none) = 1 ∧
    (["A".toList, "b".toList, ("".toList : List Char)].length - 1 = 2) := by
  constructor
  · decide
  · rfl

/-- C1 amended: for a document whose pages 2..P all yield at least one
reflowed block, the composed body holds exactly P - 1 markers; an empty
page loses its marker whenever the preceding emitted paragraph carries a
class attribute (a spliced or marker-bearing paragraph). -/
theorem page_marker_count (pagesText : List (List Char)) (startPageNum : Nat)
    (ov : Option (List Char)) (hne : pagesText ≠ [])
    (hblocks : ∀ p ∈ pagesText.drop 1, normalize_blocks p ≠ []) :
    countSub sup4 (build_html_with_page_markers pagesText startPageNum ov) =
      pagesText.length - 1 := by
  cases hep : effPages pagesText ov with
  | nil =>
    cases pagesText with
    | nil => exact absurd rfl hne
    | cons q qs => cases ov <;> simp [effPages] at hep
  | cons p0 rest =>
    have hrest : rest = pagesText.drop 1 := by
      cases pagesText with
      | nil => exact absurd rfl hne
      | cons q qs =>
        cases ov with
        | none =>
          have : q :: qs = p0 :: rest := hep
          rw [List.drop_one]
          exact ((List.cons.injEq _ _ _ _).mp this).2.symm ▸ rfl
        | some o =>
          have : o :: qs = p0 :: rest := hep
          rw [List.drop_one]
          exact ((List.cons.injEq _ _ _ _).mp this).2.symm ▸ rfl
    unfold build_html_with_page_markers
    rw [hep]
    rw [countSub_joinNl sup4 (by decide) (by decide)]
    obtain ⟨hcnt, _⟩ := buildLoop_count rest ((normalize_blocks p0).map plainP)
      startPageNum (outOK_plainPs _) (by rw [hrest]; exact hblocks)
    show outCnt (buildLoop ((normalize_blocks p0).map plainP) startPageNum rest) = _
    rw [hcnt, outCnt_plainPs]
    have hlen : rest.length + 1 = pagesText.length := by
      have h2 := effPages_length pagesText ov
      rw [hep] at h2
      simpa using h2
    omega

/-- Witness for C1 (amended): a two-page document with non-empty pages
holds exactly one marker. -/
theorem page_marker_count_witness :
    countSub sup4 (build_html_with_page_markers ["A".toList, "B".toList] 1 none) =
      ["A".toList, "B".toList].length - 1 := by
  exact page_marker_count ["A".toList, "B".toList] 1 none (by decide)
    (by intro p hp; fin_cases hp <;> decide)

/-! ### The continuation splice (claim C2)

The splice region: the escaped tail of the previous page's last
paragraph, the marker, the margin link (with its trailing space) and the
escaped first block of the next page - with no paragraph break
anywhere inside. -/

/-- The marker-bearing splice region. -/
def spliceS (lb : List Char) (pg : Nat) (f : List Char) : List Char :=
  esc lb ++ (supLit pg ++ (aLit pg ++ esc f))

/-- The splice region sits inside the body of one well-shaped element of
`out`. -/
def SIn (S : List Char) (out : List (List Char)) : Prop :=
  ∃ e ∈ out, ∃ (hd : List Char) (ps : List (List Char)),
    HeadOK hd ∧ (∀ p ∈ ps, PieceOK p) ∧ e = hd ++ (ps.flatten ++ eop) ∧ S <:+: ps.flatten

/-- The splice region contains no paragraph break: neither a close tag
nor an open tag occurs inside it. -/
theorem spliceS_no_break (lb : List Char) (pg : Nat) (f : List Char) :
    countSub eopPat (spliceS lb pg f) = 0 ∧ countSub pOpenPat (spliceS lb pg f) = 0 := by
  unfold spliceS
  constructor
  · rw [cs_eop_esc, cs_eop_supLit, cs_eop_aLit,
      show esc f = esc f ++ [] from (List.append_nil _).symm, cs_eop_esc]
    rfl
  · rw [cs_pOpen_esc, cs_pOpen_supLit, cs_pOpen_aLit,
      show esc f = esc f ++ [] from (List.append_nil _).symm, cs_pOpen_esc]
    rfl

/-- A body infix stays a body infix when the body grows on the right. -/
theorem infix_flatten_grow (S fl X : List Char) (h : S <:+: fl) : S <:+: fl ++ X := by
  obtain ⟨u, v, huv⟩ := h
  exact ⟨u, v ++ X, by rw [← huv]; simp [List.append_assoc]⟩

/-- The continuation branch establishes the splice invariant. -/
theorem buildStep_splice (out : List (List Char)) (pg : Nat) (page : List Char)
    (init : List (List Char)) (hd : List Char) (ps0 : List (List Char)) (lb : List Char)
    (f : List Char) (rest : List (List Char))
    (hout : out = init ++ [hd ++ ((ps0 ++ [esc lb]).flatten ++ eop)])
    (hhd : HeadOK hd) (hps : ∀ p ∈ ps0 ++ [esc lb], PieceOK p)
    (hb : normalize_blocks page = f :: rest)
    (hcont : looksContB f = true) :
    SIn (spliceS lb pg f) (buildStep out pg page) := by
  have hstart : startsLtP (hd ++ ((ps0 ++ [esc lb]).flatten ++ eop)) = true :=
    startsLtP_head hd _ hhd
  rw [buildStep_cont out pg page f rest init _ hb hcont hout hstart]
  obtain ⟨hd2, hhd2, hsp⟩ := spliced_decomp hd (ps0 ++ [esc lb]) pg f hhd
  rw [hsp]
  refine ⟨hd2 ++ ((((ps0 ++ [esc lb]) ++ [supLit pg, aLit pg, esc f]).flatten) ++ eop),
    ?_, hd2, (ps0 ++ [esc lb]) ++ [supLit pg, aLit pg, esc f], hhd2,
    pieces_append_three _ pg f hps, rfl, ?_⟩
  · exact List.mem_append.mpr (Or.inl (List.mem_append.mpr
      (Or.inr (List.mem_singleton.mpr rfl))))
  · refine ⟨ps0.flatten, [], ?_⟩
    unfold spliceS
    simp [List.append_assoc]

/-- A body infix survives appending further pieces. -/
theorem infix_flatten_append (S : List Char) (ps qs : List (List Char))
    (h : S <:+: ps.flatten) : S <:+: (ps ++ qs).flatten := by
  rw [List.flatten_append]
  exact infix_flatten_grow S _ _ h

/-- Every loop iteration preserves the splice invariant: a finished
splice region is never broken apart by later pages. -/
theorem buildStep_SIn (out : List (List Char)) (pg : Nat) (page : List Char)
    (S : List Char) (hout : OutOK out) (hs : SIn S out) :
    SIn S (buildStep out pg page) := by
  obtain ⟨e, he, hd, ps, hhd, hps, hdec, hinf⟩ := hs
  have ho : out ≠ [] := fun h => by subst h; cases he
  have hlast := List.dropLast_append_getLast ho
  cases hb : normalize_blocks page with
  | nil =>
    rw [buildStep_blocks_nil out pg page hb]
    rw [List.getLast?_eq_getLast out ho]
    show SIn S (if startsLtPGt (out.getLast ho) then
      out.dropLast ++ [dropLast4 (out.getLast ho) ++ supLit pg ++ eop] else out)
    by_cases hst : startsLtPGt (out.getLast ho) = true
    · rw [if_pos hst]
      rcases List.mem_append.mp (hlast ▸ he) with hmem | hmem
      · exact ⟨e, List.mem_append.mpr (Or.inl hmem), hd, ps, hhd, hps, hdec, hinf⟩
      · have heq := List.mem_singleton.mp hmem
        rw [← heq, hdec, elem_emptyedit hd ps pg hhd]
        refine ⟨hd ++ ((ps ++ [supLit pg]).flatten ++ eop),
          List.mem_append.mpr (Or.inr (List.mem_singleton.mpr rfl)),
          hd, ps ++ [supLit pg], hhd, ?_, rfl,
          infix_flatten_append S ps [supLit pg] hinf⟩
        intro p hp
        rcases List.mem_append.mp hp with h | h
        · exact hps p h
        · rcases List.mem_singleton.mp h with rfl
          exact PieceOK.sup pg
    · rw [if_neg hst]
      exact ⟨e, he, hd, ps, hhd, hps, hdec, hinf⟩
  | cons f rest =>
    by_cases hcl : looksContB f = true
    · obtain ⟨hd3, ps3, hhd3, _, hdec3⟩ := hout (out.getLast ho) (List.getLast_mem ho)
      have hstart : startsLtP (out.getLast ho) = true := by
        rw [hdec3]; exact startsLtP_head hd3 _ hhd3
      rw [buildStep_cont out pg page f rest out.dropLast (out.getLast ho)
        hb hcl hlast.symm hstart]
      rcases List.mem_append.mp (hlast ▸ he) with hmem | hmem
      · exact ⟨e, List.mem_append.mpr (Or.inl (List.mem_append.mpr (Or.inl hmem))),
          hd, ps, hhd, hps, hdec, hinf⟩
      · have heq := List.mem_singleton.mp hmem
        rw [← heq, hdec]
        obtain ⟨hd2, hhd2, hsp⟩ := spliced_decomp hd ps pg f hhd
        rw [hsp]
        exact ⟨hd2 ++ ((ps ++ [supLit pg, aLit pg, esc f]).flatten ++ eop),
          List.mem_append.mpr (Or.inl (List.mem_append.mpr
            (Or.inr (List.mem_singleton.mpr rfl)))),
          hd2, ps ++ [supLit pg, aLit pg, esc f], hhd2,
          pieces_append_three ps pg f hps, rfl,
          infix_flatten_append S ps _ hinf⟩
    · rw [buildStep_standalone out pg page f rest hb
        (Or.inl (by revert hcl; cases looksContB f <;> simp))]
      exact ⟨e, List.mem_append.mpr (Or.inl (List.mem_append.mpr (Or.inl he))),
        hd, ps, hhd, hps, hdec, hinf⟩

/-- The loop preserves well-shapedness. -/
theorem buildLoop_outOK (ps : List (List Char)) : ∀ (out : List (List Char)) (pg : Nat),
    OutOK out → OutOK (buildLoop out pg ps) := by
  induction ps with
  | nil => intro out pg h; exact h
  | cons p t ih =>
    intro out pg hout
    exact ih _ (pg + 1) (buildStep_elemOK out (pg + 1) p hout)

/-- The loop preserves the splice invariant. -/
theorem buildLoop_SIn (ps : List (List Char)) (S : List Char) :
    ∀ (out : List (List Char)) (pg : Nat),
    OutOK out → SIn S out → SIn S (buildLoop out pg ps) := by
  induction ps with
  | nil => intro out pg _ hs; exact hs
  | cons p t ih =>
    intro out pg hout hs
    exact ih _ (pg + 1) (buildStep_elemOK out (pg + 1) p hout)
      (buildStep_SIn out (pg + 1) p S hout hs)

/-- The standalone first paragraph, decomposed with its escaped block as
the final piece. -/
theorem firstHtml_decomp (pg : Nat) (f : List Char) :
    firstHtml pg f =
      hasPgHead [] ++ (([supLit pg, aLit pg] ++ [esc f]).flatten ++ eop) := by
  unfold firstHtml
  rw [firstHtml_head]
  simp [List.append_assoc]

/-- Mapped plain paragraphs, with the last one split off. -/
theorem map_plainP_concat (rest : List (List Char)) (h : rest ≠ []) :
    rest.map plainP = (rest.dropLast).map plainP ++ [plainP (rest.getLast h)] := by
  conv_lhs => rw [← List.dropLast_append_getLast h]
  rw [List.map_append]
  rfl

/-- If the element list before the trailing plain paragraphs ends with
an element whose final piece is the escaped first block, then the whole
ends with an element whose final piece is the escaped last block of the
page. -/
theorem lastE_of_tail (A init1 : List (List Char)) (hd1 : List Char)
    (ps1 : List (List Char)) (f lb : List Char) (rest : List (List Char))
    (hA : A = init1 ++ [hd1 ++ ((ps1 ++ [esc f]).flatten ++ eop)])
    (hhd1 : HeadOK hd1) (hps1 : ∀ p ∈ ps1 ++ [esc f], PieceOK p)
    (hlb : (f :: rest).getLast (List.cons_ne_nil f rest) = lb) :
    ∃ (init : List (List Char)) (hd : List Char) (ps0 : List (List Char)),
      A ++ rest.map plainP = init ++ [hd ++ ((ps0 ++ [esc lb]).flatten ++ eop)] ∧
      HeadOK hd ∧ (∀ p ∈ ps0 ++ [esc lb], PieceOK p) := by
  cases rest with
  | nil =>
    have hf : f = lb := hlb
    subst hf
    exact ⟨init1, hd1, ps1, by simp [hA], hhd1, hps1⟩
  | cons r0 rs =>
    have hrne : (r0 :: rs) ≠ [] := List.cons_ne_nil r0 rs
    have hlb2 : (r0 :: rs).getLast hrne = lb := by
      rw [← hlb]
      exact (List.getLast_cons hrne).symm
    refine ⟨A ++ ((r0 :: rs).dropLast).map plainP, "<p>".toList, [], ?_, HeadOK.plain, ?_⟩
    · rw [map_plainP_concat (r0 :: rs) hrne, hlb2]
      rw [show plainP lb =
        "<p>".toList ++ ((([] : List (List Char)) ++ [esc lb]).flatten ++ eop) from by
          simp [plainP]]
      simp [List.append_assoc]
    · intro p hp
      rcases List.mem_singleton.mp (by simpa using hp) with rfl
      exact PieceOK.txt lb

/-- Pieces of the standalone first paragraph. -/
theorem pieces_firstHtml (pg : Nat) (f : List Char) :
    ∀ p ∈ [supLit pg, aLit pg] ++ [esc f], PieceOK p := by
  intro p hp
  simp only [List.mem_append, List.mem_cons] at hp
  rcases hp with (rfl | rfl | h) | (rfl | h)
  · exact PieceOK.sup pg
  · exact PieceOK.alink pg
  · cases h
  · exact PieceOK.txt f
  · cases h

/-- After a page with at least one block, `out` ends with an element
whose final body piece is the escaped last block of that page. -/
theorem buildStep_lastE (out : List (List Char)) (pg : Nat) (page : List Char)
    (f lb : List Char) (rest : List (List Char)) (hout : OutOK out)
    (hbs : normalize_blocks page = f :: rest)
    (hlb : (f :: rest).getLast (List.cons_ne_nil f rest) = lb) :
    ∃ (init : List (List Char)) (hd : List Char) (ps0 : List (List Char)),
      buildStep out pg page = init ++ [hd ++ ((ps0 ++ [esc lb]).flatten ++ eop)] ∧
      HeadOK hd ∧ (∀ p ∈ ps0 ++ [esc lb], PieceOK p) := by
  by_cases hcl : looksContB f = true
  · by_cases ho : out = []
    · rw [buildStep_standalone out pg page f rest hbs (Or.inr ho)]
      exact lastE_of_tail (out ++ [firstHtml pg f]) out (hasPgHead [])
        [supLit pg, aLit pg] f lb rest (by rw [firstHtml_decomp])
        (HeadOK.cls [] (by intro c hc; cases hc)) (pieces_firstHtml pg f) hlb
    · have hlast := List.dropLast_append_getLast ho
      obtain ⟨hd3, ps3, hhd3, hps3, hdec3⟩ := hout (out.getLast ho) (List.getLast_mem ho)
      have hstart : startsLtP (out.getLast ho) = true := by
        rw [hdec3]; exact startsLtP_head hd3 _ hhd3
      rw [buildStep_cont out pg page f rest out.dropLast (out.getLast ho)
        hbs hcl hlast.symm hstart]
      rw [hdec3]
      obtain ⟨hd2, hhd2, hsp⟩ := spliced_decomp hd3 ps3 pg f hhd3
      rw [hsp]
      refine lastE_of_tail (out.dropLast ++
        [hd2 ++ ((ps3 ++ [supLit pg, aLit pg, esc f]).flatten ++ eop)]) out.dropLast hd2
        (ps3 ++ [supLit pg, aLit pg]) f lb rest ?_ hhd2 ?_ hlb
      · rw [show (ps3 ++ [supLit pg, aLit pg]) ++ [esc f] =
          ps3 ++ [supLit pg, aLit pg, esc f] from by simp]
      · rw [show (ps3 ++ [supLit pg, aLit pg]) ++ [esc f] =
          ps3 ++ [supLit pg, aLit pg, esc f] from by simp]
        exact pieces_append_three ps3 pg f hps3
  · rw [buildStep_standalone out pg page f rest hbs
      (Or.inl (by revert hcl; cases looksContB f <;> simp))]
    exact lastE_of_tail (out ++ [firstHtml pg f]) out (hasPgHead [])
      [supLit pg, aLit pg] f lb rest (by rw [firstHtml_decomp])
      (HeadOK.cls [] (by intro c hc; cases hc)) (pieces_firstHtml pg f) hlb

/-- The first-page elements (before the loop), ending with the escaped
last block of the first page. -/
theorem init_lastE (bs : List (List Char)) (lb : List Char) (hne : bs ≠ [])
    (hlb : bs.getLast hne = lb) :
    ∃ (init : List (List Char)) (hd : List Char) (ps0 : List (List Char)),
      bs.map plainP = init ++ [hd ++ ((ps0 ++ [esc lb]).flatten ++ eop)] ∧
      HeadOK hd ∧ (∀ p ∈ ps0 ++ [esc lb], PieceOK p) := by
  refine ⟨(bs.dropLast).map plainP, "<p>".toList, [], ?_, HeadOK.plain, ?_⟩
  · rw [map_plainP_concat bs hne, hlb]
    rw [show plainP lb =
      "<p>".toList ++ ((([] : List (List Char)) ++ [esc lb]).flatten ++ eop) from by
        simp [plainP]]
  · intro p hp
    rcases List.mem_singleton.mp (by simpa using hp) with rfl
    exact PieceOK.txt lb

/-- The loop splits over list concatenation. -/
theorem buildLoop_append (xs ys : List (List Char)) : ∀ (out : List (List Char)) (pg : Nat),
    buildLoop out pg (xs ++ ys) =
      buildLoop (buildLoop out pg xs) (pg + xs.length) ys := by
  induction xs with
  | nil => intro out pg; simp [buildLoop]
  | cons x t ih =>
    intro out pg
    show buildLoop (buildStep out (pg + 1) x) (pg + 1) (t ++ ys) = _
    rw [ih (buildStep out (pg + 1) x) (pg + 1)]
    have harith : pg + 1 + t.length = pg + (x :: t).length := by
      rw [List.length_cons]; omega
    rw [harith]
    rfl

/-- Every element of `out` sits inside the joined body. -/
theorem infix_joinNl (out : List (List Char)) (e : List Char) (he : e ∈ out) :
    e <:+: joinNl out := by
  induction out with
  | nil => cases he
  | cons x es ih =>
    cases es with
    | nil =>
      rcases List.mem_singleton.mp he with rfl
      exact List.infix_rfl
    | cons e2 es2 =>
      rcases List.mem_cons.mp he with rfl | h
      · show e <:+: e ++ '\n' :: joinNl (e2 :: es2)
        exact (List.prefix_append e _).isInfix
      · obtain ⟨u, v, huv⟩ := ih h
        show e <:+: x ++ '\n' :: joinNl (e2 :: es2)
        exact ⟨x ++ ('\n' :: u), v, by rw [← huv]; simp⟩

/-- A splice region inside an element's body sits inside the joined
body. -/
theorem SIn_infix_joinNl (S : List Char) (out : List (List Char)) (h : SIn S out) :
    S <:+: joinNl out := by
  obtain ⟨e, he, hd, ps, _, _, hdec, hinf⟩ := h
  have h1 : S <:+: e := by
    rw [hdec]
    obtain ⟨u, v, huv⟩ := hinf
    exact ⟨hd ++ u, v ++ eop, by rw [← huv]; simp [List.append_assoc]⟩
  exact h1.trans (infix_joinNl out e he)

/-- C2: whenever a page has at least one block and the following page's
first block is continuation-looking, the composed body contains the
splice region - the escaped last paragraph of the earlier page,
immediately followed by the page marker, the margin link and the escaped
first block of the later page - and that region contains no paragraph
break (no close or open tag). -/
theorem continuation_splice (pagesText : List (List Char)) (startPageNum : Nat)
    (ov : Option (List Char)) (i : Nat) (pe pe2 : List Char)
    (bs : List (List Char)) (f : List Char) (rest2 : List (List Char))
    (h1 : (effPages pagesText ov)[i]? = some pe)
    (h2 : (effPages pagesText ov)[i + 1]? = some pe2)
    (hbs : normalize_blocks pe = bs) (hbne : bs ≠ [])
    (hb2 : normalize_blocks pe2 = f :: rest2)
    (hcont : looksContB f = true) :
    spliceS (bs.getLast hbne) (startPageNum + i + 1) f <:+:
      build_html_with_page_markers pagesText startPageNum ov ∧
    countSub eopPat (spliceS (bs.getLast hbne) (startPageNum + i + 1) f) = 0 ∧
    countSub pOpenPat (spliceS (bs.getLast hbne) (startPageNum + i + 1) f) = 0 := by
  refine ⟨?_, (spliceS_no_break _ _ _).1, (spliceS_no_break _ _ _).2⟩
  cases hep : effPages pagesText ov with
  | nil => rw [hep] at h1; simp at h1
  | cons q0 qs =>
    rw [hep] at h1 h2
    unfold build_html_with_page_markers
    rw [hep]
    cases i with
    | zero =>
      have hpe : q0 = pe := by simpa using h1
      cases qs with
      | nil => simp at h2
      | cons qh qt =>
        have hpe2 : qh = pe2 := by simpa using h2
        subst hpe
        subst hpe2
        show spliceS (bs.getLast hbne) (startPageNum + 0 + 1) f <:+:
          joinNl (buildLoop ((normalize_blocks q0).map plainP) startPageNum (qh :: qt))
        rw [hbs]
        show spliceS (bs.getLast hbne) (startPageNum + 0 + 1) f <:+:
          joinNl (buildLoop (buildStep (bs.map plainP) (startPageNum + 1) qh)
            (startPageNum + 1) qt)
        obtain ⟨init, hd, ps0, hA, hhd, hps⟩ :=
          init_lastE bs (bs.getLast hbne) hbne rfl
        have hSIn := buildStep_splice (bs.map plainP) (startPageNum + 1) qh
          init hd ps0 (bs.getLast hbne) f rest2 hA hhd hps hb2 hcont
        have hOK := buildStep_elemOK (bs.map plainP) (startPageNum + 1) qh
          (outOK_plainPs bs)
        exact SIn_infix_joinNl _ _
          (buildLoop_SIn qt _ _ (startPageNum + 1) hOK hSIn)
    | succ j =>
      have h1a : qs[j]? = some pe := by simpa using h1
      have h2a : qs[j + 1]? = some pe2 := by simpa using h2
      obtain ⟨hjlt, hqj⟩ := List.getElem?_eq_some.mp h1a
      obtain ⟨hj1lt, hqj1⟩ := List.getElem?_eq_some.mp h2a
      have hsplit : qs = qs.take (j + 1) ++ qs.drop (j + 1) :=
        (List.take_append_drop _ _).symm
      have htake : qs.take (j + 1) = qs.take j ++ [pe] := by
        rw [List.take_succ, h1a]
        rfl
      have hdrop : qs.drop (j + 1) = pe2 :: qs.drop (j + 2) := by
        rw [List.drop_eq_getElem_cons hj1lt, hqj1]
      have hlen : (qs.take j).length = j := by
        rw [List.length_take]
        omega
      have hlen2 : (qs.take j ++ [pe]).length = j + 1 := by
        simp [hlen]
      show spliceS (bs.getLast hbne) (startPageNum + (j + 1) + 1) f <:+:
        joinNl (buildLoop ((normalize_blocks q0).map plainP) startPageNum qs)
      have hloop : buildLoop ((normalize_blocks q0).map plainP) startPageNum qs =
          buildLoop (buildStep
              (buildLoop ((normalize_blocks q0).map plainP) startPageNum (qs.take j))
              (startPageNum + j + 1) pe)
            (startPageNum + j + 1) (pe2 :: qs.drop (j + 2)) := by
        conv_lhs => rw [hsplit]
        rw [buildLoop_append, htake, buildLoop_append, hlen, hlen2, hdrop]
        rfl
      rw [hloop]
      have houtj : OutOK (buildLoop ((normalize_blocks q0).map plainP)
          startPageNum (qs.take j)) :=
        buildLoop_outOK (qs.take j) _ startPageNum (outOK_plainPs _)
      obtain ⟨bf, brest, hbsc⟩ : ∃ bf brest, bs = bf :: brest := by
        cases bs with
        | nil => exact absurd rfl hbne
        | cons x t => exact ⟨x, t, rfl⟩
      have hbs2 : normalize_blocks pe = bf :: brest := by rw [hbs, hbsc]
      have hlbeq : (bf :: brest).getLast (List.cons_ne_nil bf brest) =
          bs.getLast hbne := by
        subst hbsc
        rfl
      obtain ⟨init, hd, ps0, hA, hhd, hps⟩ :=
        buildStep_lastE (buildLoop ((normalize_blocks q0).map plainP)
            startPageNum (qs.take j))
          (startPageNum + j + 1) pe bf (bs.getLast hbne) brest houtj hbs2 hlbeq
      have hSIn := buildStep_splice _ (startPageNum + j + 2) pe2
        init hd ps0 (bs.getLast hbne) f rest2 hA hhd hps hb2 hcont
      have hOK := buildStep_elemOK _ (startPageNum + j + 2) pe2
        (buildStep_elemOK _ (startPageNum + j + 1) pe houtj)
      show spliceS (bs.getLast hbne) (startPageNum + (j + 1) + 1) f <:+:
        joinNl (buildLoop (buildStep _ (startPageNum + j + 2) pe2)
          (startPageNum + j + 2) (qs.drop (j + 2)))
      exact SIn_infix_joinNl _ _
        (buildLoop_SIn (qs.drop (j + 2)) _ _ (startPageNum + j + 2) hOK hSIn)

/-- Witness for C2: the spec's own example.  Page N ends "the parties
agree" and page N+1 begins "that the contract is void."; the marker and
the continuation are spliced into the same paragraph. -/
theorem continuation_splice_witness :
    spliceS ("the parties agree".toList) 6 ("that the contract is void.".toList) <:+:
      build_html_with_page_markers
        ["the parties agree".toList, "that the contract is void.".toList] 5 none := by
  have h := continuation_splice
    ["the parties agree".toList, "that the contract is void.".toList]
    5 none 0 ("the parties agree".toList) ("that the contract is void.".toList)
    ["the parties agree".toList] ("that the contract is void.".toList) []
    (by decide) (by decide) (by decide) (by decide) (by decide) (by decide)
  exact h.1
